import Mathlib

/-!
Verification development for the claude-memory chunking and hybrid-retrieval
pipeline.  Python strings are modelled as `List Char`; the functions below are
shallow embeddings of `claude_memory/chunker.py`, `claude_memory/store.py` and
`claude_memory/text_index.py`, keeping the source's names and branch structure.
-/

namespace ClaudeMemory

open scoped List

/-- `MAX_CHUNK_CHARS` from chunker.py. -/
def MAX_CHUNK_CHARS : Nat := 1400

/-- `OVERLAP_CHARS` from chunker.py. -/
def OVERLAP_CHARS : Nat := 280

/-- Python `str.isspace` characters relevant to `str.strip()` / `str.split()`. -/
def isPySpace (c : Char) : Bool :=
  c = ' ' || c = '\t' || c = '\n' || c = '\x0d' || c = '\x0b' || c = '\x0c'

/-- Python substring test `sep in text`. -/
def hasInfix (sep : List Char) : List Char → Bool
  | [] => sep.isEmpty
  | c :: rest => sep.isPrefixOf (c :: rest) || hasInfix sep rest

/-- Helper for `pySplitOn`: split on the nonempty separator `s :: ss`,
scanning left to right exactly like Python `str.split(sep)`.  The `fuel`
argument makes the recursion structural (each step consumes at least one
character, so `fuel = text.length` never runs out); it is supplied by
`pySplitOn` and does not affect the result. -/
def splitAux1 (s : Char) (ss : List Char) : Nat → List Char → List (List Char)
  | _, [] => [[]]
  | 0, _ :: _ => [[]]
  | fuel + 1, c :: rest =>
    if (s :: ss).isPrefixOf (c :: rest) then
      [] :: splitAux1 s ss fuel (rest.drop ss.length)
    else
      match splitAux1 s ss fuel rest with
      | [] => [[c]]
      | p :: ps => (c :: p) :: ps

/-- Python `text.split(sep)` for a separator string `sep`
(`sep = []` never occurs in the code; Python would raise there). -/
def pySplitOn (sep text : List Char) : List (List Char) :=
  match sep with
  | [] => [text]
  | s :: ss => splitAux1 s ss text.length text

/-- Fuelled form of the hard character split (`fuel` bounds the number of
slices; each iteration drops `MAX_CHUNK_CHARS - OVERLAP_CHARS ≥ 1`
characters, so `fuel = text.length` never runs out). -/
def hardSplitF : Nat → List Char → List (List Char)
  | _, [] => []
  | 0, _ :: _ => []
  | fuel + 1, c :: cs =>
    (c :: cs).take MAX_CHUNK_CHARS ::
      hardSplitF fuel ((c :: cs).drop (MAX_CHUNK_CHARS - OVERLAP_CHARS))

/-- The hard character split of chunker.py:
`[text[i : i + MAX_CHUNK_CHARS] for i in range(0, len(text), MAX_CHUNK_CHARS - OVERLAP_CHARS)]`. -/
def hardSplit (text : List Char) : List (List Char) :=
  hardSplitF text.length text

/-- The `for part in parts` accumulation loop inside `recursive_split`
(chunker.py lines 54-75), including the fact that `current` is *not* reset
after being flushed in the oversized-part branch.  `f` is the recursive call
`recursive_split` makes on oversized parts with the remaining separators. -/
def accumParts (sep : List Char) (f : List Char → List (List Char)) :
    List (List Char) → List (List Char) → List Char →
      List (List Char) × List Char
  | [], chunks, current => (chunks, current)
  | part :: ps, chunks, current =>
    let candidate := if current = [] then part else current ++ sep ++ part
    if candidate.length ≤ MAX_CHUNK_CHARS then
      accumParts sep f ps chunks candidate
    else
      let chunks1 := if current = [] then chunks else chunks ++ [current]
      if MAX_CHUNK_CHARS < part.length then
        accumParts sep f ps (chunks1 ++ f part) current
      else
        accumParts sep f ps chunks1 part

/-- `recursive_split` from chunker.py.  The first argument is the list of
separators still to try (initially `SEPARATORS`); when an oversized part is
met, the source recurses with the remaining separators and hard-splits when
none remain, which is exactly `recursive_split rest`. -/
def recursive_split : List (List Char) → List Char → List (List Char)
  | seps, text =>
    if text.length ≤ MAX_CHUNK_CHARS then [text]
    else
      match seps with
      | [] => hardSplit text
      | sep :: rest =>
        if hasInfix sep text then
          let st := accumParts sep (recursive_split rest) (pySplitOn sep text) [] []
          let chunks := if st.2 = ([] : List Char) then st.1 else st.1 ++ [st.2]
          if chunks = [] then [text] else chunks
        else recursive_split rest text

/-- The tail of a chunk kept as overlap:
`chunks[i-1][-overlap:] if len(chunks[i-1]) > overlap else chunks[i-1]`. -/
def overlapTail (l : List Char) : List Char :=
  l.drop (l.length - OVERLAP_CHARS)

/-- Helper for `add_overlap`: prepend the previous chunk's tail plus `" "`. -/
def addOverlapGo (prev : List Char) : List (List Char) → List (List Char)
  | [] => []
  | c :: cs => (overlapTail prev ++ [' '] ++ c) :: addOverlapGo c cs

/-- `add_overlap` from chunker.py (always called with `overlap = OVERLAP_CHARS`). -/
def add_overlap (chunks : List (List Char)) : List (List Char) :=
  match chunks with
  | [] => []
  | [c] => [c]
  | c :: cs => c :: addOverlapGo c cs

/-- `SEPARATORS` from chunker.py. -/
def SEPARATORS : List (List Char) :=
  [['\n', '\n'], ['\n'], ['.', ' '], ['!', ' '], ['?', ' '], [' ']]

/-- `CONTEXT_BEFORE` from chunker.py. -/
def CONTEXT_BEFORE : Nat := 1

/-- `CONTEXT_AFTER` from chunker.py. -/
def CONTEXT_AFTER : Nat := 1

/-- A parsed message (parser.py `Message`).  Tool-call metadata is not
modelled (no claim depends on it); the embedding corresponds to messages
whose `tool_calls` list is empty, so the derived metadata strings are `""`. -/
structure Message where
  role : List Char
  content : List Char
  uuid : List Char
  timestamp : List Char
  session_id : List Char
deriving DecidableEq, Repr

/-- `Chunk` from chunker.py. -/
structure Chunk where
  id : List Char
  text : List Char
  timestamp : List Char
  session_id : List Char
  chunk_type : List Char := ['t', 'u', 'r', 'n']
  turn_index : Int := 0
  parent_turn_id : List Char := []
  chunk_index : Int := 0
  total_chunks : Int := 1
  tools_used : List Char := []
  files_touched : List Char := []
  commands_run : List Char := []
deriving DecidableEq, Repr

/-- `f"User: {u.content}\n\nAssistant: {a.content}"`. -/
def fmtExchange (p : Message × Message) : List Char :=
  ['U', 's', 'e', 'r', ':', ' '] ++ p.1.content ++
    ['\n', '\n', 'A', 's', 's', 'i', 's', 't', 'a', 'n', 't', ':', ' '] ++
    p.2.content

/-- The `"\n\n---\n\n"` joiner between context windows. -/
def ctxSep : List Char := ['\n', '\n', '-', '-', '-', '\n', '\n']

/-- The combined context-enriched text built by `create_chunks_with_context`
for the exchange at position `i`: preceding window, current exchange,
following window, joined by `ctxSep`. -/
def exchangeContextText (exchanges : List (Message × Message)) (i : Nat) :
    List Char :=
  let start := max 0 (i - CONTEXT_BEFORE)
  let stop := min exchanges.length (i + CONTEXT_AFTER + 1)
  let before_parts := ((exchanges.drop start).take (i - start)).map fmtExchange
  let current := ((exchanges.drop i).take 1).map fmtExchange
  let after_parts := ((exchanges.drop (i + 1)).take (stop - (i + 1))).map fmtExchange
  List.intercalate ctxSep (before_parts ++ current ++ after_parts)

/-- `create_chunks_with_context` from chunker.py (with empty tool metadata,
see `Message`).  `i` is assumed in range at every call site, as in the
source; out of range the Python code would raise, here it yields `[]`. -/
def create_chunks_with_context (exchanges : List (Message × Message))
    (i : Nat) : List Chunk :=
  match exchanges[i]? with
  | none => []
  | some (_, assistant_msg) =>
    let text := exchangeContextText exchanges i
    let base_id := assistant_msg.uuid
    if text.length ≤ MAX_CHUNK_CHARS then
      [{ id := base_id, text := text, timestamp := assistant_msg.timestamp,
         session_id := assistant_msg.session_id, turn_index := (i : Int) }]
    else
      let parts := add_overlap (recursive_split SEPARATORS text)
      (parts.enum).map fun q =>
        { id := if parts.length > 1 then
              base_id ++ ['-'] ++ Nat.toDigits 10 q.1
            else base_id,
          text := q.2, timestamp := assistant_msg.timestamp,
          session_id := assistant_msg.session_id, turn_index := (i : Int),
          parent_turn_id := base_id, chunk_index := (q.1 : Int),
          total_chunks := (parts.length : Int) }

/-- `is_excluded_message` from chunker.py:
`content.strip().lower() in EXCLUDED_USER_MESSAGES` with the set `{"warmup"}`. -/
def is_excluded_message (content : List Char) : Bool :=
  let stripped := (content.dropWhile isPySpace).reverse.dropWhile isPySpace
  stripped.reverse.map Char.toLower = ['w', 'a', 'r', 'm', 'u', 'p']

/-- The first pass of `chunk_conversation`: pair each user message with the
next assistant message, dropping excluded exchanges; `pending` is the
`user_msg` variable. -/
def collectExchangesAux : List Message → Option Message →
    List (Message × Message)
  | [], _ => []
  | m :: rest, pending =>
    if m.role = ['u', 's', 'e', 'r'] then
      collectExchangesAux rest (some m)
    else if m.role = ['a', 's', 's', 'i', 's', 't', 'a', 'n', 't'] then
      match pending with
      | some u =>
        if is_excluded_message u.content then collectExchangesAux rest none
        else (u, m) :: collectExchangesAux rest none
      | none => collectExchangesAux rest none
    else collectExchangesAux rest pending

/-- The exchange list built by `chunk_conversation`. -/
def collectExchanges (msgs : List Message) : List (Message × Message) :=
  collectExchangesAux msgs none

/-- `chunk_conversation` from chunker.py, as a function of the parsed
message list (the `parse_conversation` output). -/
def chunk_conversation (msgs : List Message) : List Chunk :=
  let exchanges := collectExchanges msgs
  ((List.range exchanges.length).map
    (create_chunks_with_context exchanges)).flatten

/-! ### Python dicts as association lists

`dictInsert` has Python `d[k] = v` semantics: an existing key keeps its
position and gets the new value, a new key is appended; `d.values()` is
`List.map Prod.snd`. -/

/-- Python `d.get(k)` / `k in d` lookup. -/
def lookupAssoc {β : Type} (k : List Char) :
    List (List Char × β) → Option β
  | [] => none
  | (k2, v) :: rest => if k2 = k then some v else lookupAssoc k rest

/-- Python `d[k] = v`. -/
def dictInsert {β : Type} (k : List Char) (v : β) :
    List (List Char × β) → List (List Char × β)
  | [] => [(k, v)]
  | (k2, v2) :: rest =>
    if k2 = k then (k, v) :: rest else (k2, v2) :: dictInsert k v rest

/-! ### Chunk log records (`load_all_chunks`, chunker.py lines 347-388) -/

/-- A JSON object on a chunk log line, with every field optional
(missing key = `none`). -/
structure RawRec where
  id : Option (List Char) := none
  text : Option (List Char) := none
  timestamp : Option (List Char) := none
  session_id : Option (List Char) := none
  chunk_type : Option (List Char) := none
  turn_index : Option Int := none
  parent_turn_id : Option (List Char) := none
  chunk_index : Option Int := none
  total_chunks : Option Int := none
  tools_used : Option (List Char) := none
  files_touched : Option (List Char) := none
  commands_run : Option (List Char) := none
deriving DecidableEq, Repr

/-- One physical line of a chunk log shard: either text that is not a JSON
object (`json.loads` raises), or a parsed object. -/
inductive LogLine where
  | badLine : LogLine
  | record : RawRec → LogLine
deriving DecidableEq, Repr

/-- The per-line body of `load_all_chunks`: build a `Chunk` from a parsed
record, or `none` when the line is invalid JSON or `data[...]` raises
`KeyError` on a required field (both caught and skipped in the source). -/
def parseLine : LogLine → Option Chunk
  | .badLine => none
  | .record r =>
    match r.id, r.text, r.timestamp, r.session_id with
    | some i, some t, some ts, some sid =>
      some { id := i, text := t, timestamp := ts, session_id := sid,
             chunk_type := r.chunk_type.getD ['t', 'u', 'r', 'n'],
             turn_index := r.turn_index.getD 0,
             parent_turn_id := r.parent_turn_id.getD [],
             chunk_index := r.chunk_index.getD 0,
             total_chunks := r.total_chunks.getD 1,
             tools_used := r.tools_used.getD [],
             files_touched := r.files_touched.getD [],
             commands_run := r.commands_run.getD [] }
    | _, _, _, _ => none

/-- `load_all_chunks` from chunker.py over the shard files' lines:
deduplicate by id into an insertion-ordered dict, keeping the last
occurrence's chunk, then return the values. -/
def load_all_chunks (shards : List (List LogLine)) : List Chunk :=
  (shards.foldl
    (fun d lines =>
      lines.foldl
        (fun d line =>
          match parseLine line with
          | none => d
          | some c => dictInsert c.id c d)
        d)
    []).map Prod.snd

/-! ### `sync_chunks` (chunker.py lines 288-344)

The filesystem state is explicit: the processed-marker table, this
machine's shard (`CHUNKS_FILE`, which appends go to) and the other
machines' shards.  `chunk_conversation` is passed in as a function of the
source file path, as `sync_chunks` uses it as a black box. -/

/-- A source conversation file: full path, `filepath.name` (the basename,
used as the processed-marker key) and `str(filepath.stat().st_mtime)`. -/
structure ConvFile where
  path : List Char
  name : List Char
  mtime : List Char
deriving DecidableEq, Repr

/-- The persistent state `sync_chunks` reads and writes. -/
structure SyncState where
  processed : List (List Char × List Char)
  chunksFile : List Chunk
  otherShards : List (List Chunk)
deriving DecidableEq, Repr

/-- `load_existing_chunk_ids`: ids across all shard files (the glob picks up
this machine's shard too). -/
def existingIds (st : SyncState) : List (List Char) :=
  ((st.otherShards ++ [st.chunksFile]).map (fun s => s.map Chunk.id)).flatten

/-- The `for chunk in chunk_conversation(filepath)` loop of `sync_chunks`:
append chunks whose id is unseen, extending the known-id set, counting, and
recording whether the file contributed anything. -/
def absorbChunks : List Chunk → List Chunk → List (List Char) → Nat → Bool →
    List Chunk × List (List Char) × Nat × Bool
  | [], cf, ex, nc, hadNew => (cf, ex, nc, hadNew)
  | c :: cs, cf, ex, nc, hadNew =>
    if c.id ∈ ex then absorbChunks cs cf ex nc hadNew
    else absorbChunks cs (cf ++ [c]) (c.id :: ex) (nc + 1) true

/-- The `for filepath in conversation_files` loop of `sync_chunks`. -/
def syncGo (chunkOf : List Char → List Chunk) :
    List ConvFile → List (List Char × List Char) → List Chunk →
      List (List Char) → Nat → Nat →
      List (List Char × List Char) × List Chunk × Nat × Nat
  | [], pr, cf, _, nc, nf => (pr, cf, nc, nf)
  | f :: fs, pr, cf, ex, nc, nf =>
    if lookupAssoc f.name pr = some f.mtime then
      syncGo chunkOf fs pr cf ex nc nf
    else
      let r := absorbChunks (chunkOf f.path) cf ex nc false
      syncGo chunkOf fs (dictInsert f.name f.mtime pr) r.1 r.2.1 r.2.2.1
        (nf + if r.2.2.2 then 1 else 0)

/-- `sync_chunks` from chunker.py: returns the updated state and the
`(new_chunks, new_files)` counts. -/
def sync_chunks (chunkOf : List Char → List Chunk) (files : List ConvFile)
    (st : SyncState) : SyncState × Nat × Nat :=
  let r := syncGo chunkOf files st.processed st.chunksFile (existingIds st) 0 0
  (⟨r.1, r.2.1, st.otherShards⟩, r.2.2.1, r.2.2.2)

/-! ### `TextIndex._prepare_query` (text_index.py lines 171-191) -/

/-- Python `str.upper()` (ASCII is what matters here). -/
def pyUpper (l : List Char) : List Char := l.map Char.toUpper

/-- Fuelled Python `str.split()` — split on whitespace runs, no empty
words; each step consumes at least one character, so `fuel = text.length`
never runs out. -/
def pySplitF : Nat → List Char → List (List Char)
  | _, [] => []
  | 0, _ :: _ => []
  | fuel + 1, c :: cs =>
    if isPySpace c then pySplitF fuel cs
    else
      (c :: cs.takeWhile (fun d => !isPySpace d)) ::
        pySplitF fuel (cs.dropWhile (fun d => !isPySpace d))

/-- Python `query.split()`. -/
def pySplit (t : List Char) : List (List Char) := pySplitF t.length t

/-- The FTS5 operator markers checked by `_prepare_query`:
`[" AND ", " OR ", " NOT ", '"']`. -/
def FTS_OPS : List (List Char) :=
  [[' ', 'A', 'N', 'D', ' '], [' ', 'O', 'R', ' '], [' ', 'N', 'O', 'T', ' '],
   ['"']]

/-- `any(op in query.upper() for op in ...)`. -/
def hasSyntax (q : List Char) : Bool :=
  FTS_OPS.any (fun op => hasInfix op (pyUpper q))

/-- The `" OR "` joiner. -/
def orSep : List Char := [' ', 'O', 'R', ' ']

/-- `TextIndex._prepare_query` from text_index.py. -/
def prepare_query (q : List Char) : List Char :=
  if hasSyntax q then q
  else
    let words := pySplit q
    if words = [] then q
    else
      List.intercalate orSep
        ((words.filter (fun w => w ≠ [])).map (fun w => w ++ ['*']))

/-! ### `Store.search` (store.py lines 116-262)

Scores are rationals; the vector collection and the keyword index are
abstracted as the result lists their queries return. -/

/-- `HYBRID_VECTOR_WEIGHT` from store.py. -/
def HYBRID_VECTOR_WEIGHT : ℚ := 7 / 10

/-- The metadata dictionary carried with each result (after
`_vector_search` stores the document text under `"text"`). -/
structure MetaR where
  text : List Char := []
  session_id : List Char := []
  timestamp : List Char := []
  chunk_type : List Char := ['t', 'u', 'r', 'n']
  turn_index : Int := 0
  parent_turn_id : List Char := []
  chunk_index : Int := 0
  total_chunks : Int := 1
  tools_used : List Char := []
  files_touched : List Char := []
  commands_run : List Char := []
deriving DecidableEq, Repr

/-- One `(chunk_id, distance, metadata)` triple from `_vector_search`. -/
structure VecHit where
  id : List Char
  distance : ℚ
  meta : MetaR
deriving DecidableEq, Repr

/-- One `TextSearchResult` from `TextIndex.search`. -/
structure BM25Hit where
  chunk_id : List Char
  text : List Char
  bm25_score : ℚ
  session_id : List Char
  timestamp : List Char
deriving DecidableEq, Repr

/-- Python `max` over a nonempty list (the sole call sites guard against
emptiness, where Python would raise). -/
def pyMax : List ℚ → ℚ
  | [] => 0
  | x :: xs => xs.foldl max x

/-- Python `min` over a nonempty list. -/
def pyMin : List ℚ → ℚ
  | [] => 0
  | x :: xs => xs.foldl min x

/-- `max_dist = max(r[1] for r in vector_results) or 1.0`. -/
def vecMaxDist (vec : List VecHit) : ℚ :=
  let m := pyMax (vec.map VecHit.distance)
  if m = 0 then 1 else m

/-- The vector half of the scores dict:
`scores[chunk_id] = (distance / max_dist, metadata)`. -/
def buildVecScores (vec : List VecHit) : List (List Char × (ℚ × MetaR)) :=
  vec.foldl (fun d h => dictInsert h.id (h.distance / vecMaxDist vec, h.meta) d) []

/-- `norm_bm25 = (score - min_score) / score_range`. -/
def bm25Norm (mn rng s : ℚ) : ℚ := (s - mn) / rng

/-- The metadata stub inserted for a BM25-only result (store.py 207-219). -/
def bm25OnlyMeta (r : BM25Hit) : MetaR :=
  { text := r.text, session_id := r.session_id, timestamp := r.timestamp }

/-- One iteration of the `for result in bm25_results` loop. -/
def kwStep (mn rng : ℚ) (d : List (List Char × (ℚ × MetaR))) (r : BM25Hit) :
    List (List Char × (ℚ × MetaR)) :=
  match lookupAssoc r.chunk_id d with
  | some (old, meta) =>
    dictInsert r.chunk_id
      (HYBRID_VECTOR_WEIGHT * old +
        (1 - HYBRID_VECTOR_WEIGHT) * bm25Norm mn rng r.bm25_score, meta) d
  | none =>
    dictInsert r.chunk_id
      (1 / 2 + (1 - HYBRID_VECTOR_WEIGHT) * bm25Norm mn rng r.bm25_score,
       bm25OnlyMeta r) d

/-- `min_score = min(r.bm25_score for r in bm25_results)`. -/
def kwMinScore (kw : List BM25Hit) : ℚ := pyMin (kw.map BM25Hit.bm25_score)

/-- `max_score = max(r.bm25_score for r in bm25_results)`. -/
def kwMaxScore (kw : List BM25Hit) : ℚ := pyMax (kw.map BM25Hit.bm25_score)

/-- `score_range = max_score - min_score if max_score != min_score else 1.0`. -/
def kwScoreRange (kw : List BM25Hit) : ℚ :=
  if kwMaxScore kw ≠ kwMinScore kw then kwMaxScore kw - kwMinScore kw else 1

/-- The merged scores dict of `Store.search` with `hybrid=True`
(store.py lines 167-220): vector scores, then the BM25 pass (which only
runs when `bm25_results` is nonempty). -/
def hybridScores (vec : List VecHit) (kw : List BM25Hit) :
    List (List Char × (ℚ × MetaR)) :=
  let scores0 := buildVecScores vec
  if kw = [] then scores0
  else kw.foldl (kwStep (kwMinScore kw) (kwScoreRange kw)) scores0

/-- `SearchResult` from store.py. -/
structure SearchResult where
  text : List Char
  session_id : List Char
  timestamp : List Char
  distance : ℚ
  chunk_type : List Char := ['t', 'u', 'r', 'n']
  turn_index : Int := 0
  parent_turn_id : List Char := []
  chunk_index : Int := 0
  total_chunks : Int := 1
  tools_used : List Char := []
  files_touched : List Char := []
  commands_run : List Char := []
deriving DecidableEq, Repr

/-- Building a `SearchResult` from a scores-dict entry. -/
def toSearchResult (e : List Char × (ℚ × MetaR)) : SearchResult :=
  { text := e.2.2.text, session_id := e.2.2.session_id,
    timestamp := e.2.2.timestamp, distance := e.2.1,
    chunk_type := e.2.2.chunk_type, turn_index := e.2.2.turn_index,
    parent_turn_id := e.2.2.parent_turn_id, chunk_index := e.2.2.chunk_index,
    total_chunks := e.2.2.total_chunks, tools_used := e.2.2.tools_used,
    files_touched := e.2.2.files_touched, commands_run := e.2.2.commands_run }

/-- Stable insertion for the ascending sort by combined score
(Python `sorted` with `key=lambda x: x[0][0]`, stable). -/
def insertByScore (x : List Char × (ℚ × MetaR)) :
    List (List Char × (ℚ × MetaR)) → List (List Char × (ℚ × MetaR))
  | [] => [x]
  | y :: ys => if y.2.1 ≤ x.2.1 then y :: insertByScore x ys else x :: y :: ys

/-- Stable ascending sort by score. -/
def sortByScore (l : List (List Char × (ℚ × MetaR))) :
    List (List Char × (ℚ × MetaR)) :=
  l.foldl (fun acc x => insertByScore x acc) []

/-- The `dedupe_splits` loop of `Store.search` (store.py lines 249-260),
including the synthetic `__unique_{len(deduped)}` key for unsplit results. -/
def dedupeSplitsGo (n : Nat) :
    List SearchResult → List (List Char) → List SearchResult →
      List SearchResult
  | [], _, deduped => deduped
  | r :: rest, seen, deduped =>
    let key := if r.parent_turn_id = [] then
        ['_', '_', 'u', 'n', 'i', 'q', 'u', 'e', '_'] ++
          Nat.toDigits 10 deduped.length
      else r.parent_turn_id
    if key ∈ seen then dedupeSplitsGo n rest seen deduped
    else
      let deduped2 := deduped ++ [r]
      if n ≤ deduped2.length then deduped2
      else dedupeSplitsGo n rest (key :: seen) deduped2

/-- `Store.search` from store.py.  `count` is `self._collection.count()`;
`vectorSearch` abstracts `_vector_search` as a function of `fetch_n`;
`kwAvailable` is whether constructing/querying `TextIndex` succeeds (the
`except` branch falls back to vector-only); `kwSearch` abstracts
`TextIndex.search` as a function of `fetch_n`. -/
def searchStore (count : Nat) (vectorSearch : Nat → List VecHit)
    (kwAvailable : Bool) (kwSearch : Nat → List BM25Hit) (n : Nat)
    (dedupe_splits hybrid : Bool) : List SearchResult :=
  if count = 0 then []
  else
    let fetch_n := if dedupe_splits then min (n * 5) count else min (n * 2) count
    let vec := vectorSearch fetch_n
    let scores :=
      if hybrid && kwAvailable then hybridScores vec (kwSearch fetch_n)
      else buildVecScores vec
    let results := (sortByScore scores).map toSearchResult
    if dedupe_splits then dedupeSplitsGo n results [] []
    else results.take n

/-! ### Separator-content bookkeeping for the coverage claim (C3) -/

/-- Characters that can occur in the strings of `SEPARATORS`. -/
def sepChar (c : Char) : Bool :=
  c = '\n' || c = '.' || c = '!' || c = '?' || c = ' '

/-- The non-separator content of a text. -/
def keepContent (t : List Char) : List Char := t.filter (fun c => !sepChar c)

/-- The per-id dedup fold of `load_all_chunks`, started from a dict `d`. -/
def dictFoldChunks (d : List (List Char × Chunk)) (L : List Chunk) :
    List (List Char × Chunk) :=
  L.foldl (fun d c => dictInsert c.id c d) d

/-- All chunk records accepted by `load_all_chunks`, in file-iteration then
line order. -/
def parsedRecords (shards : List (List LogLine)) : List Chunk :=
  (shards.map (fun lines => lines.filterMap parseLine)).flatten

/-- The accepted records carrying a given id, in physical order. -/
def occurrencesOf (q : List Char) (shards : List (List LogLine)) :
    List Chunk :=
  (parsedRecords shards).filter (fun c => decide (c.id = q))

/-! ### Concrete scenario for the basename-collision behaviour of
`sync_chunks`: two source files in different project directories share the
basename `n` (the processed-marker key), with different mtimes. -/

/-- Two source files with the same basename `n`. -/
def collisionFiles : List ConvFile :=
  [⟨['p', '1'], ['n'], ['1']⟩, ⟨['p', '2'], ['n'], ['2']⟩]

/-- Their conversations each produce one chunk. -/
def collisionChunkOf (p : List Char) : List Chunk :=
  if p = ['p', '1'] then [{ id := ['a'], text := ['A'], timestamp := [], session_id := [] }]
  else [{ id := ['b'], text := ['B'], timestamp := [], session_id := [] }]

/-- A state whose marker table says `n` was last seen with file 1's mtime. -/
def collisionState : SyncState :=
  { processed := [(['n'], ['1'])], chunksFile := [], otherShards := [] }

/-! ### Concrete hybrid-search candidate sets for the ranking behaviour of
`Store.search` (ids `a`, `b` from the vector index, `c`, `d` keyword-only). -/

/-- Vector hit `a` with distance 1. -/
def aHit : VecHit := ⟨['a'], 1, {}⟩

/-- Vector hit `b` with distance 2. -/
def bHit : VecHit := ⟨['b'], 2, {}⟩

/-- Keyword-only hit `c` with BM25 score -5. -/
def cHit : BM25Hit := ⟨['c'], [], -5, [], []⟩

/-- Keyword-only hit `d` with BM25 score -1. -/
def dHit : BM25Hit := ⟨['d'], [], -1, [], []⟩

/-- The vector candidate set of the scenario. -/
def vecCE : List VecHit := [aHit, bHit]

/-- The keyword candidate set of the scenario. -/
def kwCE : List BM25Hit := [cHit, dHit]

/-! ### Concrete oversized exchanges for the splitting claims.

`ex2` is the spec's end-to-end scenario: a 6400-character assistant
response.  `ex3` is a 1596-character exchange whose split drops the
`"\n\n"` separator between its two fragments. -/

/-- The `"User: "` prefix of an exchange text. -/
def LITU : List Char := ['U', 's', 'e', 'r', ':', ' ']

/-- The `"\n\nAssistant: "` middle of an exchange text. -/
def MIDA : List Char :=
  ['\n', '\n', 'A', 's', 's', 'i', 's', 't', 'a', 'n', 't', ':', ' ']

/-- `"Assistant: "` (what follows the `"\n\n"` separator). -/
def LITA : List Char :=
  ['A', 's', 's', 'i', 's', 't', 'a', 'n', 't', ':', ' ']

/-- `"Assistant:"` (the part before its trailing space). -/
def LITA0 : List Char :=
  ['A', 's', 's', 'i', 's', 't', 'a', 'n', 't', ':']

/-- User message of the 6400-character scenario. -/
def mU2 : Message :=
  ⟨['u', 's', 'e', 'r'], ['h', 'i'], ['u', '2'], [], []⟩

/-- Assistant message with a 6400-character response. -/
def mA2 : Message :=
  ⟨['a', 's', 's', 'i', 's', 't', 'a', 'n', 't'], List.replicate 6400 'x',
   ['x', '2'], [], []⟩

/-- The single-exchange list of the 6400-character scenario. -/
def ex2 : List (Message × Message) := [(mU2, mA2)]

/-- The chunks produced for the 6400-character scenario. -/
def cs2 : List Chunk := create_chunks_with_context ex2 0

/-- User message of the separator-loss scenario (794 characters). -/
def mU3 : Message :=
  ⟨['u', 's', 'e', 'r'], List.replicate 794 'u', ['u', '3'], [], []⟩

/-- Assistant message of the separator-loss scenario (783 characters). -/
def mA3 : Message :=
  ⟨['a', 's', 's', 'i', 's', 't', 'a', 'n', 't'], List.replicate 783 'a',
   ['x', '3'], [], []⟩

/-- The single-exchange list of the separator-loss scenario. -/
def ex3 : List (Message × Message) := [(mU3, mA3)]

/-- The chunks produced for the separator-loss scenario. -/
def cs3 : List Chunk := create_chunks_with_context ex3 0

/-- First part of the separator-loss split: `"User: "` plus 794 `u`s
(800 characters). -/
def P1ce : List Char := LITU ++ List.replicate 794 'u'

/-- Second part of the separator-loss split: `"Assistant: "` plus 783 `a`s
(794 characters). -/
def P2ce : List Char := LITA ++ List.replicate 783 'a'

/-- `"User: hi"`, the first part of the 6400-character scenario's split. -/
def U2 : List Char := LITU ++ ['h', 'i']

/-- A full-size hard-split slice: 1400 `x`s. -/
def R14 : List Char := List.replicate 1400 'x'

/-- The final hard-split slice: 800 `x`s. -/
def R8 : List Char := List.replicate 800 'x'

/-- The ten pre-overlap parts `recursive_split` produces for the
6400-character scenario (note the duplicated `"Assistant:"` and
`"User: hi"` entries from the never-reset `current` variable). -/
def parts2 : List (List Char) :=
  [U2, LITA0, R14, R14, R14, R14, R14, R8, LITA0, U2]

/-- The same parts after `add_overlap`. -/
def oparts2 : List (List Char) :=
  [U2,
   overlapTail U2 ++ [' '] ++ LITA0,
   overlapTail LITA0 ++ [' '] ++ R14,
   overlapTail R14 ++ [' '] ++ R14,
   overlapTail R14 ++ [' '] ++ R14,
   overlapTail R14 ++ [' '] ++ R14,
   overlapTail R14 ++ [' '] ++ R14,
   overlapTail R14 ++ [' '] ++ R8,
   overlapTail R8 ++ [' '] ++ LITA0,
   overlapTail LITA0 ++ [' '] ++ U2]

/-- The chunk records of the 6400-character scenario (`k`-th fragment with
text `t`). -/
def chunkOf2 (k : Nat) (t : List Char) : Chunk :=
  { id := mA2.uuid ++ ['-'] ++ Nat.toDigits 10 k, text := t,
    timestamp := mA2.timestamp, session_id := mA2.session_id,
    turn_index := 0, parent_turn_id := mA2.uuid,
    chunk_index := (k : Int), total_chunks := 10 }

/-- The full chunk list of the 6400-character scenario. -/
def chunks2 : List Chunk :=
  [chunkOf2 0 U2,
   chunkOf2 1 (overlapTail U2 ++ [' '] ++ LITA0),
   chunkOf2 2 (overlapTail LITA0 ++ [' '] ++ R14),
   chunkOf2 3 (overlapTail R14 ++ [' '] ++ R14),
   chunkOf2 4 (overlapTail R14 ++ [' '] ++ R14),
   chunkOf2 5 (overlapTail R14 ++ [' '] ++ R14),
   chunkOf2 6 (overlapTail R14 ++ [' '] ++ R14),
   chunkOf2 7 (overlapTail R14 ++ [' '] ++ R8),
   chunkOf2 8 (overlapTail R8 ++ [' '] ++ LITA0),
   chunkOf2 9 (overlapTail LITA0 ++ [' '] ++ U2)]

/-! ## Theorems -/

/-- C9: with an empty vector collection (`count() == 0`), `Store.search`
returns `[]` immediately — before `fetch_n`, `_vector_search` or the
`TextIndex` block run — so the result is the empty list and is independent
of whatever the keyword index would return, even with `hybrid=True`. -/
theorem C9_empty_collection_short_circuit
    (vectorSearch : Nat → List VecHit) (kwAvailable : Bool)
    (kwSearch kwSearch2 : Nat → List BM25Hit) (n : Nat)
    (dedupe_splits hybrid : Bool) :
    searchStore 0 vectorSearch kwAvailable kwSearch n dedupe_splits hybrid
        = [] ∧
      searchStore 0 vectorSearch kwAvailable kwSearch n dedupe_splits hybrid
        = searchStore 0 vectorSearch kwAvailable kwSearch2 n dedupe_splits
            hybrid := by
  refine ⟨?_, ?_⟩ <;> simp [searchStore]

/-- C6: a message sequence user, assistant, user, assistant, user (with
non-excluded user contents) pairs into exactly the two exchanges
`(u1, a1)` and `(u2, a2)`; the trailing user message is dropped, and
`chunk_conversation` builds its chunks from those two exchanges alone. -/
theorem C6_pairing (m1 m2 m3 m4 m5 : Message)
    (h1 : m1.role = ['u', 's', 'e', 'r'])
    (h2 : m2.role = ['a', 's', 's', 'i', 's', 't', 'a', 'n', 't'])
    (h3 : m3.role = ['u', 's', 'e', 'r'])
    (h4 : m4.role = ['a', 's', 's', 'i', 's', 't', 'a', 'n', 't'])
    (h5 : m5.role = ['u', 's', 'e', 'r'])
    (hx1 : is_excluded_message m1.content = false)
    (hx3 : is_excluded_message m3.content = false) :
    collectExchanges [m1, m2, m3, m4, m5] = [(m1, m2), (m3, m4)] ∧
      chunk_conversation [m1, m2, m3, m4, m5] =
        ((List.range 2).map
          (create_chunks_with_context [(m1, m2), (m3, m4)])).flatten := by
  have hex : collectExchanges [m1, m2, m3, m4, m5] = [(m1, m2), (m3, m4)] := by
    simp [collectExchanges, collectExchangesAux, h1, h2, h3, h4, h5, hx1, hx3]
  refine ⟨hex, ?_⟩
  rw [chunk_conversation, hex]
  simp

/-- Witness for C6 at concrete messages. -/
theorem C6_pairing_witness :
    collectExchanges
        [⟨['u', 's', 'e', 'r'], ['1'], ['i', '1'], [], []⟩,
         ⟨['a', 's', 's', 'i', 's', 't', 'a', 'n', 't'], ['2'], ['i', '2'], [], []⟩,
         ⟨['u', 's', 'e', 'r'], ['3'], ['i', '3'], [], []⟩,
         ⟨['a', 's', 's', 'i', 's', 't', 'a', 'n', 't'], ['4'], ['i', '4'], [], []⟩,
         ⟨['u', 's', 'e', 'r'], ['5'], ['i', '5'], [], []⟩] =
      [(⟨['u', 's', 'e', 'r'], ['1'], ['i', '1'], [], []⟩,
        ⟨['a', 's', 's', 'i', 's', 't', 'a', 'n', 't'], ['2'], ['i', '2'], [], []⟩),
       (⟨['u', 's', 'e', 'r'], ['3'], ['i', '3'], [], []⟩,
        ⟨['a', 's', 's', 'i', 's', 't', 'a', 'n', 't'], ['4'], ['i', '4'], [], []⟩)] :=
  (C6_pairing _ _ _ _ _ rfl rfl rfl rfl rfl (by decide) (by decide)).1

/-- C10: two consecutive user messages before an assistant message pair as
the single exchange `(u2, a1)`: the earlier user message is overwritten by
the later one and yields no exchange and no chunk. -/
theorem C10_consecutive_users (m1 m2 m3 : Message)
    (h1 : m1.role = ['u', 's', 'e', 'r'])
    (h2 : m2.role = ['u', 's', 'e', 'r'])
    (h3 : m3.role = ['a', 's', 's', 'i', 's', 't', 'a', 'n', 't'])
    (hx2 : is_excluded_message m2.content = false) :
    collectExchanges [m1, m2, m3] = [(m2, m3)] ∧
      chunk_conversation [m1, m2, m3] =
        ((List.range 1).map
          (create_chunks_with_context [(m2, m3)])).flatten := by
  have hex : collectExchanges [m1, m2, m3] = [(m2, m3)] := by
    simp [collectExchanges, collectExchangesAux, h1, h2, h3, hx2]
  refine ⟨hex, ?_⟩
  rw [chunk_conversation, hex]
  simp

/-- Witness for C10 at concrete messages. -/
theorem C10_consecutive_users_witness :
    collectExchanges
        [⟨['u', 's', 'e', 'r'], ['1'], ['i', '1'], [], []⟩,
         ⟨['u', 's', 'e', 'r'], ['2'], ['i', '2'], [], []⟩,
         ⟨['a', 's', 's', 'i', 's', 't', 'a', 'n', 't'], ['3'], ['i', '3'], [], []⟩] =
      [(⟨['u', 's', 'e', 'r'], ['2'], ['i', '2'], [], []⟩,
        ⟨['a', 's', 's', 'i', 's', 't', 'a', 'n', 't'], ['3'], ['i', '3'], [], []⟩)] :=
  (C10_consecutive_users _ _ _ rfl rfl rfl (by decide)).1

/-- C8: a log record with the four required fields is accepted, with every
absent optional field defaulted (`chunk_type="turn"`, `turn_index=0`,
`parent_turn_id=""`, `chunk_index=0`, `total_chunks=1`, metadata fields
`""`); an invalid-JSON line or a record missing a required field is
skipped, and skipping never aborts the load: the result is the same as if
the offending lines were absent. -/
theorem C8_record_defaults_and_skip :
    (∀ (i t ts sid : List Char) (r : RawRec), r.id = some i →
      r.text = some t → r.timestamp = some ts → r.session_id = some sid →
      parseLine (.record r) = some
        { id := i, text := t, timestamp := ts, session_id := sid,
          chunk_type := r.chunk_type.getD ['t', 'u', 'r', 'n'],
          turn_index := r.turn_index.getD 0,
          parent_turn_id := r.parent_turn_id.getD [],
          chunk_index := r.chunk_index.getD 0,
          total_chunks := r.total_chunks.getD 1,
          tools_used := r.tools_used.getD [],
          files_touched := r.files_touched.getD [],
          commands_run := r.commands_run.getD [] }) ∧
    parseLine .badLine = none ∧
    (∀ r : RawRec,
      r.id = none ∨ r.text = none ∨ r.timestamp = none ∨
        r.session_id = none →
      parseLine (.record r) = none) ∧
    (∀ shards : List (List LogLine),
      load_all_chunks shards =
        load_all_chunks
          (shards.map (fun lines =>
            lines.filter (fun l => (parseLine l).isSome)))) := by
  refine ⟨?_, rfl, ?_, ?_⟩
  · intro i t ts sid r hi ht hts hsid
    simp [parseLine, hi, ht, hts, hsid]
  · intro r h
    rcases h with h | h | h | h <;> simp [parseLine, h]
  · intro shards
    have inner : ∀ (lines : List LogLine)
        (d : List (List Char × Chunk)),
        lines.foldl
            (fun d line =>
              match parseLine line with
              | none => d
              | some c => dictInsert c.id c d) d =
          (lines.filter (fun l => (parseLine l).isSome)).foldl
            (fun d line =>
              match parseLine line with
              | none => d
              | some c => dictInsert c.id c d) d := by
      intro lines
      induction lines with
      | nil => intro d; rfl
      | cons l rest ih =>
        intro d
        rcases hp : parseLine l with _ | c <;> simp [hp, ih]
    have outer : ∀ (sh : List (List LogLine)) (d : List (List Char × Chunk)),
        sh.foldl
            (fun d lines =>
              lines.foldl
                (fun d line =>
                  match parseLine line with
                  | none => d
                  | some c => dictInsert c.id c d) d) d =
          (sh.map (fun lines =>
              lines.filter (fun l => (parseLine l).isSome))).foldl
            (fun d lines =>
              lines.foldl
                (fun d line =>
                  match parseLine line with
                  | none => d
                  | some c => dictInsert c.id c d) d) d := by
      intro sh
      induction sh with
      | nil => intro d; rfl
      | cons lines rest ih =>
        intro d
        simp only [List.map_cons, List.foldl_cons]
        rw [← inner lines, ih]
    unfold load_all_chunks
    rw [outer]

/-- Witness for C8 at a concrete record carrying only the required
fields. -/
theorem C8_record_defaults_and_skip_witness :
    parseLine
        (.record { id := some ['a'], text := some ['t'],
                   timestamp := some ['s'], session_id := some ['q'] }) =
      some { id := ['a'], text := ['t'], timestamp := ['s'],
             session_id := ['q'] } :=
  C8_record_defaults_and_skip.1 ['a'] ['t'] ['s'] ['q'] _ rfl rfl rfl rfl

/-! ### Association-list dictionary lemmas -/

theorem dictInsert_nil {β : Type} (k : List Char) (v : β) :
    dictInsert k v [] = [(k, v)] := rfl

theorem dictInsert_cons {β : Type} (k : List Char) (v : β) (k2 : List Char)
    (v2 : β) (rest : List (List Char × β)) :
    dictInsert k v ((k2, v2) :: rest) =
      if k2 = k then (k, v) :: rest else (k2, v2) :: dictInsert k v rest := rfl

theorem mem_keys_dictInsert {β : Type} {k x : List Char} {v : β} :
    ∀ {d : List (List Char × β)},
      x ∈ (dictInsert k v d).map Prod.fst → x = k ∨ x ∈ d.map Prod.fst := by
  intro d
  induction d with
  | nil => intro h; simpa [dictInsert] using h
  | cons e rest ih =>
    obtain ⟨k2, v2⟩ := e
    intro h
    by_cases he : k2 = k
    · simp only [dictInsert, he, if_true, if_pos, List.map_cons] at h
      rcases List.mem_cons.1 h with h | h
      · exact Or.inl h
      · exact Or.inr (List.mem_cons.2 (Or.inr h))
    · simp only [dictInsert, he, if_neg, not_false_iff, List.map_cons] at h
      rcases List.mem_cons.1 h with h | h
      · exact Or.inr (List.mem_cons.2 (Or.inl h))
      · rcases ih h with h2 | h2
        · exact Or.inl h2
        · exact Or.inr (List.mem_cons.2 (Or.inr h2))

theorem nodup_keys_dictInsert {β : Type} (k : List Char) (v : β) :
    ∀ {d : List (List Char × β)}, (d.map Prod.fst).Nodup →
      ((dictInsert k v d).map Prod.fst).Nodup := by
  intro d
  induction d with
  | nil => intro _; simp [dictInsert]
  | cons e rest ih =>
    obtain ⟨k2, v2⟩ := e
    intro h
    simp only [List.map_cons, List.nodup_cons] at h
    by_cases he : k2 = k
    · simp only [dictInsert, he, if_pos, List.map_cons, List.nodup_cons]
      exact ⟨he ▸ h.1, h.2⟩
    · simp only [dictInsert, he, if_neg, not_false_iff, List.map_cons,
        List.nodup_cons]
      refine ⟨fun hmem => ?_, ih h.2⟩
      rcases mem_keys_dictInsert hmem with h2 | h2
      · exact he h2
      · exact h.1 h2

theorem filter_key_of_not_mem {β : Type} {q : List Char}
    {d : List (List Char × β)} (h : q ∉ d.map Prod.fst) :
    d.filter (fun e => decide (e.1 = q)) = [] := by
  induction d with
  | nil => rfl
  | cons e rest ih =>
    obtain ⟨k2, v2⟩ := e
    simp only [List.map_cons, List.mem_cons, not_or] at h
    have he : (decide (k2 = q)) = false := by
      simp only [decide_eq_false_iff_not]
      exact fun hh => h.1 hh.symm
    rw [List.filter_cons]
    simp only [he, cond_false]
    exact ih h.2

theorem filter_dictInsert_self {β : Type} (k : List Char) (v : β) :
    ∀ {d : List (List Char × β)}, (d.map Prod.fst).Nodup →
      (dictInsert k v d).filter (fun e => decide (e.1 = k)) = [(k, v)] := by
  intro d
  induction d with
  | nil =>
    intro _
    simp [dictInsert, List.filter_cons]
  | cons e rest ih =>
    obtain ⟨k2, v2⟩ := e
    intro h
    simp only [List.map_cons, List.nodup_cons] at h
    by_cases he : k2 = k
    · simp only [dictInsert, he, if_pos, List.filter_cons]
      have hrest : rest.filter (fun e => decide (e.1 = k)) = [] :=
        filter_key_of_not_mem (he ▸ h.1)
      simp [hrest]
    · rw [dictInsert_cons, if_neg he, List.filter_cons]
      have hd2 : (decide ((k2, v2).1 = k)) = false := by simp [he]
      rw [hd2]
      simp only [Bool.false_eq_true, if_false]
      exact ih h.2

theorem filter_dictInsert_ne {β : Type} {k q : List Char} (v : β)
    (h : k ≠ q) :
    ∀ (d : List (List Char × β)),
      (dictInsert k v d).filter (fun e => decide (e.1 = q)) =
        d.filter (fun e => decide (e.1 = q)) := by
  intro d
  induction d with
  | nil =>
    rw [dictInsert, List.filter_cons]
    simp [h]
  | cons e rest ih =>
    obtain ⟨k2, v2⟩ := e
    by_cases he : k2 = k
    · simp only [dictInsert, he, if_pos]
      rw [List.filter_cons, List.filter_cons]
      have h1 : (decide (k = q)) = false := by simp [h]
      have h2 : (decide (k2 = q)) = false := by simp [he, h]
      simp [h1, h2]
    · simp only [dictInsert, he, if_neg, not_false_iff]
      rw [List.filter_cons, List.filter_cons]
      by_cases heq : k2 = q <;> simp [heq, ih]

theorem mem_dictInsert {β : Type} {k : List Char} {v : β} {e : List Char × β} :
    ∀ {d : List (List Char × β)}, e ∈ dictInsert k v d →
      e = (k, v) ∨ e ∈ d := by
  intro d
  induction d with
  | nil => intro h; simpa [dictInsert] using h
  | cons e2 rest ih =>
    obtain ⟨k2, v2⟩ := e2
    intro h
    by_cases he : k2 = k
    · simp only [dictInsert, he, if_pos, List.mem_cons] at h
      rcases h with h | h
      · exact Or.inl h
      · exact Or.inr (List.mem_cons.2 (Or.inr h))
    · simp only [dictInsert, he, if_neg, not_false_iff, List.mem_cons] at h
      rcases h with h | h
      · exact Or.inr (List.mem_cons.2 (Or.inl h))
      · rcases ih h with h2 | h2
        · exact Or.inl h2
        · exact Or.inr (List.mem_cons.2 (Or.inr h2))

theorem nodup_keys_dictFoldChunks (L : List Chunk)
    {d : List (List Char × Chunk)} (h : (d.map Prod.fst).Nodup) :
    ((dictFoldChunks d L).map Prod.fst).Nodup := by
  induction L generalizing d with
  | nil => exact h
  | cons c rest ih => exact ih (nodup_keys_dictInsert c.id c h)

theorem filter_dictFoldChunks (q : List Char) (L : List Chunk) :
    ∀ (d : List (List Char × Chunk)), (d.map Prod.fst).Nodup →
      (dictFoldChunks d L).filter (fun e => decide (e.1 = q)) =
        match (L.filter (fun c => decide (c.id = q))).getLast? with
        | some c => [(q, c)]
        | none => d.filter (fun e => decide (e.1 = q)) := by
  induction L with
  | nil => intro d _; rfl
  | cons c rest ih =>
    intro d hd
    have step : dictFoldChunks d (c :: rest) =
        dictFoldChunks (dictInsert c.id c d) rest := rfl
    rw [step, ih _ (nodup_keys_dictInsert c.id c hd)]
    by_cases hc : c.id = q
    · have hfc : (c :: rest).filter (fun c => decide (c.id = q)) =
          c :: rest.filter (fun c => decide (c.id = q)) := by
        rw [List.filter_cons]; simp [hc]
      rw [hfc]
      rcases hrest : rest.filter (fun c => decide (c.id = q)) with _ | ⟨c2, cs⟩
      · simp only [hrest, List.getLast?_singleton]
        subst hc
        exact filter_dictInsert_self c.id c hd
      · simp only [hrest, List.getLast?_cons_cons]
        rcases hg : (c2 :: cs).getLast? with _ | c3
        · rw [List.getLast?_eq_none_iff] at hg
          exact absurd hg (by simp)
        · rfl
    · have hfc : (c :: rest).filter (fun c => decide (c.id = q)) =
          rest.filter (fun c => decide (c.id = q)) := by
        rw [List.filter_cons]; simp [hc]
      rw [hfc]
      rcases hrest : rest.filter (fun c => decide (c.id = q)) with _ | ⟨c2, cs⟩
      · simp only [hrest]
        exact filter_dictInsert_ne c hc d
      · simp only [hrest]
        rcases hg : (c2 :: cs).getLast? with _ | c3
        · rw [List.getLast?_eq_none_iff] at hg
          exact absurd hg (by simp)
        · rfl

theorem entries_dictFoldChunks (L : List Chunk) :
    ∀ (d : List (List Char × Chunk)), (∀ e ∈ d, e.2.id = e.1) →
      ∀ e ∈ dictFoldChunks d L, e.2.id = e.1 := by
  induction L with
  | nil => intro d hd; exact hd
  | cons c rest ih =>
    intro d hd
    refine ih _ (fun e he => ?_)
    rcases mem_dictInsert he with h | h
    · rw [h]
    · exact hd e h

theorem values_filter_eq {q : List Char} :
    ∀ {d : List (List Char × Chunk)}, (∀ e ∈ d, e.2.id = e.1) →
      (d.map Prod.snd).filter (fun c => decide (c.id = q)) =
        (d.filter (fun e => decide (e.1 = q))).map Prod.snd := by
  intro d
  induction d with
  | nil => intro _; rfl
  | cons e rest ih =>
    intro h
    have he : e.2.id = e.1 := h e (List.mem_cons_self _ _)
    have hrest := ih (fun x hx => h x (List.mem_cons.2 (Or.inr hx)))
    by_cases heq : e.1 = q
    · simp [List.filter_cons, he, heq, hrest]
    · simp [List.filter_cons, he, heq, hrest]

theorem load_all_chunks_eq_fold (shards : List (List LogLine)) :
    load_all_chunks shards =
      (dictFoldChunks [] (parsedRecords shards)).map Prod.snd := by
  have inner : ∀ (lines : List LogLine) (d : List (List Char × Chunk)),
      lines.foldl
          (fun d line =>
            match parseLine line with
            | none => d
            | some c => dictInsert c.id c d) d =
        dictFoldChunks d (lines.filterMap parseLine) := by
    intro lines
    induction lines with
    | nil => intro d; rfl
    | cons l rest ih =>
      intro d
      rcases hp : parseLine l with _ | c <;>
        simp [hp, ih, dictFoldChunks]
  have outer : ∀ (sh : List (List LogLine)) (d : List (List Char × Chunk)),
      sh.foldl
          (fun d lines =>
            lines.foldl
              (fun d line =>
                match parseLine line with
                | none => d
                | some c => dictInsert c.id c d) d) d =
        dictFoldChunks d
          ((sh.map (fun lines => lines.filterMap parseLine)).flatten) := by
    intro sh
    induction sh with
    | nil => intro d; rfl
    | cons lines rest ih =>
      intro d
      simp only [List.map_cons, List.foldl_cons, List.flatten_cons]
      rw [inner lines, ih]
      simp [dictFoldChunks, List.foldl_append]
  unfold load_all_chunks parsedRecords
  rw [outer]

/-- C5: when an id occurs on several accepted physical lines across the
shard files, `load_all_chunks` returns exactly one chunk with that id, and
it is the last physical occurrence in file-iteration then line order. -/
theorem C5_dedup_keeps_last (shards : List (List LogLine)) (q : List Char)
    (h : 2 ≤ (occurrencesOf q shards).length) :
    (load_all_chunks shards).filter (fun c => decide (c.id = q)) =
        ((occurrencesOf q shards).getLast?).toList ∧
      ((load_all_chunks shards).filter (fun c => decide (c.id = q))).length
        = 1 := by
  have hnodup : (([] : List (List Char × Chunk)).map Prod.fst).Nodup := by
    simp
  have hmain :
      (load_all_chunks shards).filter (fun c => decide (c.id = q)) =
        ((occurrencesOf q shards).getLast?).toList := by
    rw [load_all_chunks_eq_fold,
      values_filter_eq (entries_dictFoldChunks _ _ (by simp)),
      filter_dictFoldChunks q _ _ hnodup]
    rcases hlast : (parsedRecords shards |>.filter
        (fun c => decide (c.id = q))).getLast? with _ | c
    · simp only [occurrencesOf, hlast, Option.toList_none]
      rfl
    · simp only [occurrencesOf, hlast, Option.toList_some]
      rfl
  refine ⟨hmain, ?_⟩
  rw [hmain]
  rcases hlast : (occurrencesOf q shards).getLast? with _ | c
  · rw [List.getLast?_eq_none_iff] at hlast
    rw [hlast] at h
    simp at h
  · simp

/-- Witness for C5: one shard with two records sharing the id `"a"`; the
loaded set holds exactly the second record. -/
theorem C5_dedup_keeps_last_witness :
    (load_all_chunks
          [[.record { id := some ['a'], text := some ['1'],
                      timestamp := some [], session_id := some [] },
            .record { id := some ['a'], text := some ['2'],
                      timestamp := some [], session_id := some [] }]]).filter
        (fun c => decide (c.id = ['a'])) =
      ((occurrencesOf ['a']
          [[.record { id := some ['a'], text := some ['1'],
                      timestamp := some [], session_id := some [] },
            .record { id := some ['a'], text := some ['2'],
                      timestamp := some [], session_id := some [] }]]).getLast?).toList :=
  (C5_dedup_keeps_last _ ['a'] (by decide)).1

/-! ### `sync_chunks` lemmas -/

theorem lookupAssoc_dictInsert_self {β : Type} (k : List Char) (v : β) :
    ∀ (d : List (List Char × β)), lookupAssoc k (dictInsert k v d) = some v := by
  intro d
  induction d with
  | nil => simp [dictInsert, lookupAssoc]
  | cons e rest ih =>
    obtain ⟨k2, v2⟩ := e
    by_cases he : k2 = k
    · rw [dictInsert_cons, if_pos he, lookupAssoc, if_pos rfl]
    · rw [dictInsert_cons, if_neg he, lookupAssoc, if_neg he]
      exact ih

theorem lookupAssoc_dictInsert_ne {β : Type} {k q : List Char} (v : β)
    (h : k ≠ q) :
    ∀ (d : List (List Char × β)),
      lookupAssoc q (dictInsert k v d) = lookupAssoc q d := by
  intro d
  induction d with
  | nil => simp [dictInsert, lookupAssoc, h]
  | cons e rest ih =>
    obtain ⟨k2, v2⟩ := e
    by_cases he : k2 = k
    · rw [dictInsert_cons, if_pos he, lookupAssoc, if_neg h, lookupAssoc,
        if_neg (he ▸ h)]
    · rw [dictInsert_cons, if_neg he, lookupAssoc, lookupAssoc]
      by_cases heq : k2 = q
      · rw [if_pos heq, if_pos heq]
      · rw [if_neg heq, if_neg heq, ih]

/-- `absorbChunks` appends exactly the chunks whose id was not yet known,
never touching the existing shard prefix, and only grows the id set. -/
theorem absorbChunks_spec :
    ∀ (cs cf0 : List Chunk) (ex : List (List Char)) (nc : Nat) (b : Bool),
      ∃ new : List Chunk,
        (absorbChunks cs cf0 ex nc b).1 = cf0 ++ new ∧
        (∀ c ∈ new, c.id ∉ ex) ∧
        (∀ i ∈ ex, i ∈ (absorbChunks cs cf0 ex nc b).2.1) := by
  intro cs
  induction cs with
  | nil =>
    intro cf0 ex nc b
    exact ⟨[], by simp [absorbChunks], by simp, fun i hi => by
      simpa [absorbChunks] using hi⟩
  | cons c rest ih =>
    intro cf0 ex nc b
    by_cases hc : c.id ∈ ex
    · rcases ih cf0 ex nc b with ⟨new, h1, h2, h3⟩
      refine ⟨new, ?_, h2, ?_⟩
      · simpa [absorbChunks, hc] using h1
      · intro i hi
        have := h3 i hi
        simpa [absorbChunks, hc] using this
    · rcases ih (cf0 ++ [c]) (c.id :: ex) (nc + 1) true with ⟨new, h1, h2, h3⟩
      refine ⟨c :: new, ?_, ?_, ?_⟩
      · rw [absorbChunks, if_neg hc, h1]
        simp
      · intro x hx
        rcases List.mem_cons.1 hx with hx | hx
        · rw [hx]; exact hc
        · intro hmem
          exact h2 x hx (List.mem_cons.2 (Or.inr hmem))
      · intro i hi
        rw [absorbChunks, if_neg hc]
        exact h3 i (List.mem_cons.2 (Or.inr hi))

/-- `syncGo` only appends fresh ids: the shard is extended, and every
appended chunk's id was absent from the id set the pass started with. -/
theorem syncGo_append_fresh (chunkOf : List Char → List Chunk) :
    ∀ (files : List ConvFile) (pr : List (List Char × List Char))
      (cf0 : List Chunk) (ex : List (List Char)) (nc nf : Nat),
      ∃ new : List Chunk,
        (syncGo chunkOf files pr cf0 ex nc nf).2.1 = cf0 ++ new ∧
        ∀ c ∈ new, c.id ∉ ex := by
  intro files
  induction files with
  | nil =>
    intro pr cf0 ex nc nf
    exact ⟨[], by simp [syncGo], by simp⟩
  | cons f fs ih =>
    intro pr cf0 ex nc nf
    by_cases hskip : lookupAssoc f.name pr = some f.mtime
    · rcases ih pr cf0 ex nc nf with ⟨new, h1, h2⟩
      exact ⟨new, by simpa [syncGo, hskip] using h1, h2⟩
    · rcases absorbChunks_spec (chunkOf f.path) cf0 ex nc false with
        ⟨new1, ha1, ha2, ha3⟩
      rcases ih (dictInsert f.name f.mtime pr)
          (absorbChunks (chunkOf f.path) cf0 ex nc false).1
          (absorbChunks (chunkOf f.path) cf0 ex nc false).2.1
          (absorbChunks (chunkOf f.path) cf0 ex nc false).2.2.1
          (nf + if (absorbChunks (chunkOf f.path) cf0 ex nc false).2.2.2
            then 1 else 0) with ⟨new2, hb1, hb2⟩
      refine ⟨new1 ++ new2, ?_, ?_⟩
      · rw [syncGo, if_neg hskip]
        rw [hb1, ha1, List.append_assoc]
      · intro c hc
        rcases List.mem_append.1 hc with hc | hc
        · exact ha2 c hc
        · intro hmem
          exact hb2 c hc (ha3 c.id hmem)

/-- After a pass over files with pairwise-distinct basenames, the marker of
every file equals its mtime. -/
theorem syncGo_marker (chunkOf : List Char → List Chunk) :
    ∀ (files : List ConvFile) (pr : List (List Char × List Char))
      (cf0 : List Chunk) (ex : List (List Char)) (nc nf : Nat),
      (files.map ConvFile.name).Nodup →
      ∀ f ∈ files,
        lookupAssoc f.name (syncGo chunkOf files pr cf0 ex nc nf).1 =
          some f.mtime := by
  have preserve : ∀ (files : List ConvFile) (pr : List (List Char × List Char))
      (cf0 : List Chunk) (ex : List (List Char)) (nc nf : Nat)
      (nm : List Char), (∀ g ∈ files, g.name ≠ nm) →
      lookupAssoc nm (syncGo chunkOf files pr cf0 ex nc nf).1 =
        lookupAssoc nm pr := by
    intro files
    induction files with
    | nil => intro pr cf0 ex nc nf nm _; rfl
    | cons f fs ih =>
      intro pr cf0 ex nc nf nm hnm
      have hf : f.name ≠ nm := hnm f (List.mem_cons_self _ _)
      have hfs : ∀ g ∈ fs, g.name ≠ nm :=
        fun g hg => hnm g (List.mem_cons.2 (Or.inr hg))
      by_cases hskip : lookupAssoc f.name pr = some f.mtime
      · rw [syncGo, if_pos hskip]
        exact ih pr cf0 ex nc nf nm hfs
      · rw [syncGo, if_neg hskip]
        rw [ih _ _ _ _ _ nm hfs, lookupAssoc_dictInsert_ne _ hf]
  intro files
  induction files with
  | nil => intro pr cf0 ex nc nf _ f hf; exact absurd hf (by simp)
  | cons g fs ih =>
    intro pr cf0 ex nc nf hnodup f hf
    simp only [List.map_cons, List.nodup_cons] at hnodup
    rcases List.mem_cons.1 hf with hf | hf
    · subst hf
      by_cases hskip : lookupAssoc f.name pr = some f.mtime
      · rw [syncGo, if_pos hskip]
        rw [preserve fs pr cf0 ex nc nf f.name
          (fun g hg hgn => hnodup.1 (hgn ▸ List.mem_map.2 ⟨g, hg, rfl⟩))]
        exact hskip
      · rw [syncGo, if_neg hskip]
        rw [preserve fs _ _ _ _ _ f.name
          (fun g hg hgn => hnodup.1 (hgn ▸ List.mem_map.2 ⟨g, hg, rfl⟩))]
        exact lookupAssoc_dictInsert_self f.name f.mtime pr
    · by_cases hskip : lookupAssoc g.name pr = some g.mtime
      · rw [syncGo, if_pos hskip]
        exact ih pr cf0 ex nc nf hnodup.2 f hf
      · rw [syncGo, if_neg hskip]
        exact ih _ _ _ _ _ hnodup.2 f hf

/-- If every file's marker already matches, `syncGo` does nothing. -/
theorem syncGo_skip_all (chunkOf : List Char → List Chunk) :
    ∀ (files : List ConvFile) (pr : List (List Char × List Char))
      (cf0 : List Chunk) (ex : List (List Char)) (nc nf : Nat),
      (∀ f ∈ files, lookupAssoc f.name pr = some f.mtime) →
      syncGo chunkOf files pr cf0 ex nc nf = (pr, cf0, nc, nf) := by
  intro files
  induction files with
  | nil => intro pr cf0 ex nc nf _; rfl
  | cons f fs ih =>
    intro pr cf0 ex nc nf h
    rw [syncGo, if_pos (h f (List.mem_cons_self _ _))]
    exact ih pr cf0 ex nc nf (fun g hg => h g (List.mem_cons.2 (Or.inr hg)))

/-- C4 (amended): over a source set whose basenames are pairwise distinct,
a second `sync_chunks` run with unchanged mtimes is a strict no-op — it
returns `(0, 0)` and the state (marker table, this machine's shard, other
shards) is unchanged; moreover any single run only appends, and every
appended chunk's id was absent from every shard (including shards merged
from other machines) when the run started.  (With a repeated basename the
no-op part fails: see the counterexample.) -/
theorem C4_sync_idempotent (chunkOf : List Char → List Chunk)
    (files : List ConvFile) (st : SyncState)
    (hnodup : (files.map ConvFile.name).Nodup) :
    sync_chunks chunkOf files (sync_chunks chunkOf files st).1 =
        ((sync_chunks chunkOf files st).1, 0, 0) ∧
      ∃ new : List Chunk,
        (sync_chunks chunkOf files st).1.chunksFile =
            st.chunksFile ++ new ∧
          (∀ c ∈ new, c.id ∉ existingIds st) ∧
          (sync_chunks chunkOf files st).1.otherShards = st.otherShards := by
  constructor
  · have hmark : ∀ f ∈ files,
        lookupAssoc f.name (sync_chunks chunkOf files st).1.processed =
          some f.mtime := by
      intro f hf
      exact syncGo_marker chunkOf files st.processed st.chunksFile
        (existingIds st) 0 0 hnodup f hf
    have hr := syncGo_skip_all chunkOf files
      (sync_chunks chunkOf files st).1.processed
      (sync_chunks chunkOf files st).1.chunksFile
      (existingIds (sync_chunks chunkOf files st).1) 0 0 hmark
    show sync_chunks chunkOf files ((sync_chunks chunkOf files st).1) =
      ((sync_chunks chunkOf files st).1, 0, 0)
    simp only [sync_chunks] at hr ⊢
    rw [hr]
  · rcases syncGo_append_fresh chunkOf files st.processed st.chunksFile
      (existingIds st) 0 0 with ⟨new, h1, h2⟩
    exact ⟨new, h1, h2, rfl⟩

/-- Witness for C4 at a one-file, one-chunk instance. -/
theorem C4_sync_idempotent_witness :
    sync_chunks collisionChunkOf [⟨['p', '1'], ['n'], ['1']⟩]
        (sync_chunks collisionChunkOf [⟨['p', '1'], ['n'], ['1']⟩]
          ⟨[], [], []⟩).1 =
      ((sync_chunks collisionChunkOf [⟨['p', '1'], ['n'], ['1']⟩]
          ⟨[], [], []⟩).1, 0, 0) :=
  (C4_sync_idempotent collisionChunkOf [⟨['p', '1'], ['n'], ['1']⟩]
    ⟨[], [], []⟩ (by decide)).1

/-- Counterexample to C4 as stated: with two source files of equal basename
`n` in different directories (the marker key is the basename), a completed
pass exists after which, with every mtime unchanged, the next run returns
`(1, 1)` and appends to the shard. -/
theorem C4_counterexample :
    (sync_chunks collisionChunkOf collisionFiles
        (sync_chunks collisionChunkOf collisionFiles collisionState).1).2 =
        (1, 1) ∧
      (sync_chunks collisionChunkOf collisionFiles
          (sync_chunks collisionChunkOf collisionFiles
            collisionState).1).1.chunksFile ≠
        (sync_chunks collisionChunkOf collisionFiles
          collisionState).1.chunksFile := by
  decide

/-! ### `_prepare_query` lemmas -/

theorem dropWhile_head_false {p : Char → Bool} :
    ∀ {l : List Char} {d : Char} {rs : List Char},
      l.dropWhile p = d :: rs → p d = false := by
  intro l
  induction l with
  | nil => intro d rs h; simp [List.dropWhile] at h
  | cons c cs ih =>
    intro d rs h
    rw [List.dropWhile_cons] at h
    by_cases hp : p c = true
    · rw [if_pos hp] at h; exact ih h
    · rw [if_neg hp] at h
      cases h
      simpa using hp

theorem pySplitF_fuel :
    ∀ (f1 : Nat) (t : List Char) (f2 : Nat), t.length ≤ f1 →
      t.length ≤ f2 → pySplitF f1 t = pySplitF f2 t := by
  intro f1
  induction f1 with
  | zero =>
    intro t f2 h1 _
    rcases t with _ | ⟨c, cs⟩
    · rcases f2 with _ | g2 <;> rfl
    · simp at h1
  | succ g1 ih =>
    intro t f2 h1 h2
    rcases t with _ | ⟨c, cs⟩
    · rcases f2 with _ | g2 <;> rfl
    · rcases f2 with _ | g2
      · simp at h2
      · simp only [List.length_cons] at h1 h2
        rw [pySplitF, pySplitF]
        by_cases hc : isPySpace c = true
        · rw [if_pos hc, if_pos hc]
          exact ih cs g2 (by omega) (by omega)
        · rw [if_neg hc, if_neg hc]
          have hlen : (cs.dropWhile (fun d => !isPySpace d)).length ≤
              cs.length :=
            ((cs.dropWhile_sublist (fun d => !isPySpace d)).length_le)
          rw [ih (cs.dropWhile (fun d => !isPySpace d)) g2 (by omega)
            (by omega)]

theorem pySplit_cons_space {c : Char} {cs : List Char}
    (h : isPySpace c = true) : pySplit (c :: cs) = pySplit cs := by
  rw [pySplit, pySplit, List.length_cons, pySplitF, if_pos h]

theorem pySplit_cons_word {c : Char} {cs : List Char}
    (h : isPySpace c = false) :
    pySplit (c :: cs) =
      (c :: cs.takeWhile (fun d => !isPySpace d)) ::
        pySplit (cs.dropWhile (fun d => !isPySpace d)) := by
  rw [pySplit, pySplit, List.length_cons, pySplitF, if_neg (by simp [h])]
  have hlen : (cs.dropWhile (fun d => !isPySpace d)).length ≤ cs.length :=
    ((cs.dropWhile_sublist (fun d => !isPySpace d)).length_le)
  rw [pySplitF_fuel cs.length _ _ hlen le_rfl]

theorem pySplit_word_ne_nil :
    ∀ (t : List Char), ∀ w ∈ pySplit t, w ≠ []
  | [] => by simp [pySplit, pySplitF]
  | c :: cs => by
    by_cases h : isPySpace c = true
    · rw [pySplit_cons_space h]
      exact pySplit_word_ne_nil cs
    · rw [pySplit_cons_word (Bool.not_eq_true _ ▸ h)]
      intro w hw
      rcases List.mem_cons.1 hw with hw | hw
      · rw [hw]; simp
      · exact pySplit_word_ne_nil (cs.dropWhile fun d => !isPySpace d) w hw
termination_by t => t.length
decreasing_by
· simp only [List.length_cons]; omega
· have := (cs.dropWhile_sublist (fun d => !isPySpace d)).length_le
  simp only [List.length_cons]; omega

theorem pySplit_head_decomp :
    ∀ (t : List Char) (w : List Char) (ws : List (List Char)),
      pySplit t = w :: ws →
      ∃ p r, t = p ++ w ++ r ∧ (∀ c ∈ p, isPySpace c = true) ∧ w ≠ [] ∧
        (∀ c ∈ w, isPySpace c = false) ∧
        (r = [] ∨ ∃ d rs, r = d :: rs ∧ isPySpace d = true) := by
  intro t
  induction t with
  | nil => intro w ws h; simp [pySplit, pySplitF] at h
  | cons c cs ih =>
    intro w ws h
    by_cases hc : isPySpace c = true
    · rw [pySplit_cons_space hc] at h
      rcases ih w ws h with ⟨p, r, h1, h2, h3, h4, h5⟩
      refine ⟨c :: p, r, by rw [h1]; rfl, ?_, h3, h4, h5⟩
      intro x hx
      rcases List.mem_cons.1 hx with hx | hx
      · rw [hx]; exact hc
      · exact h2 x hx
    · have hc2 : isPySpace c = false := Bool.not_eq_true _ ▸ hc
      rw [pySplit_cons_word hc2] at h
      cases h
      refine ⟨[], cs.dropWhile (fun d => !isPySpace d), ?_, by simp, by simp,
        ?_, ?_⟩
      · simp [List.takeWhile_append_dropWhile]
      · intro x hx
        rcases List.mem_cons.1 hx with hx | hx
        · rw [hx]; exact hc2
        · have := List.mem_takeWhile_imp hx
          simpa using this
      · rcases hdw : cs.dropWhile (fun d => !isPySpace d) with _ | ⟨d, rs⟩
        · exact Or.inl rfl
        · refine Or.inr ⟨d, rs, rfl, ?_⟩
          have := dropWhile_head_false hdw
          simpa using this

theorem intercalate_cons₂ {α : Type} (s a b : List α) (l : List (List α)) :
    List.intercalate s (a :: b :: l) = a ++ s ++ List.intercalate s (b :: l) := by
  simp [List.intercalate, List.intersperse]

/-- C7 (amended): `_prepare_query` returns the query unchanged exactly when
it contains explicit boolean/quote syntax **or has no words** (empty or
whitespace-only); every query with at least one word and no syntax is
rewritten to the words suffixed with `*` and joined by `" OR "`. -/
theorem C7_prepare_query_characterization (q : List Char) :
    (prepare_query q = q ↔ (hasSyntax q = true ∨ pySplit q = [])) ∧
      (hasSyntax q = false → ∀ w ws, pySplit q = w :: ws →
        prepare_query q =
          List.intercalate orSep
            ((w :: ws).map (fun v => v ++ ['*']))) := by
  have transform : hasSyntax q = false → ∀ w ws, pySplit q = w :: ws →
      prepare_query q =
        List.intercalate orSep ((w :: ws).map (fun v => v ++ ['*'])) := by
    intro hs w ws hw
    rw [prepare_query, if_neg (by simp [hs]), hw,
      if_neg (by simp)]
    have hfilter : (w :: ws).filter (fun v => decide ¬v = []) = w :: ws := by
      refine List.filter_eq_self.2 (fun v hv => ?_)
      have := pySplit_word_ne_nil q v (hw ▸ hv)
      simp [this]
    rw [hfilter]
  refine ⟨⟨?_, ?_⟩, transform⟩
  · intro h
    by_cases hs : hasSyntax q = true
    · exact Or.inl hs
    · rcases hw : pySplit q with _ | ⟨w, ws⟩
      · exact Or.inr rfl
      · exfalso
        have hs2 : hasSyntax q = false := Bool.not_eq_true _ ▸ hs
        have ht := transform hs2 w ws hw
        rw [h] at ht
        rcases pySplit_head_decomp q w ws hw with ⟨p, r, hq, hp, hwne, hwns, hr⟩
        have hshape : ∃ rest0, List.intercalate orSep
            ((w :: ws).map (fun v => v ++ ['*'])) = w ++ '*' :: rest0 := by
          rcases ws with _ | ⟨b, bs⟩
          · exact ⟨[], by simp [List.intercalate]⟩
          · refine ⟨orSep ++ List.intercalate orSep
              ((b :: bs).map (fun v => v ++ ['*'])), ?_⟩
            rw [List.map_cons, List.map_cons, intercalate_cons₂]
            simp [List.append_assoc]
        rcases hshape with ⟨rest0, hshape⟩
        rw [hshape] at ht
        rcases hpc : p with _ | ⟨pc, p2⟩
        · subst hpc
          simp only [List.nil_append] at hq
          rw [hq] at ht
          have hr2 : r = '*' :: rest0 := List.append_cancel_left ht
          rcases hr with hr | ⟨d, rs, hdr, hd⟩
          · rw [hr] at hr2
            simp at hr2
          · rw [hdr] at hr2
            obtain ⟨hd2, -⟩ := List.cons_eq_cons.1 hr2
            rw [hd2] at hd
            simp [isPySpace] at hd
        · rcases hw2 : w with _ | ⟨wh, w2⟩
          · exact hwne hw2
          · rw [hq, hpc, hw2] at ht
            simp only [List.cons_append, List.append_assoc] at ht
            obtain ⟨hheads, -⟩ := List.cons_eq_cons.1 ht
            have h1 : isPySpace wh = false :=
              hwns wh (by rw [hw2]; exact List.mem_cons_self _ _)
            have h2 : isPySpace pc = true :=
              hp pc (by rw [hpc]; exact List.mem_cons_self _ _)
            rw [hheads, h1] at h2
            simp at h2
  · intro h
    rcases h with h | h
    · rw [prepare_query, if_pos h]
    · rw [prepare_query]
      by_cases hs : hasSyntax q = true
      · rw [if_pos hs]
      · rw [if_neg hs, h, if_pos rfl]

/-- Witness for C7 at the query `"auth bug"`. -/
theorem C7_prepare_query_characterization_witness :
    prepare_query ['a', 'u', 't', 'h', ' ', 'b', 'u', 'g'] =
      List.intercalate orSep
        (([['a', 'u', 't', 'h'], ['b', 'u', 'g']]).map
          (fun v => v ++ ['*'])) :=
  (C7_prepare_query_characterization
      ['a', 'u', 't', 'h', ' ', 'b', 'u', 'g']).2 (by decide)
    ['a', 'u', 't', 'h'] [['b', 'u', 'g']] (by decide)

/-- Counterexample to C7 as stated: the whitespace-only query `" "`
contains no boolean/quote syntax yet is returned unchanged, so "unchanged
exactly when the query contains explicit syntax" fails. -/
theorem C7_counterexample :
    prepare_query [' '] = [' '] ∧ hasSyntax [' '] = false := by
  decide

/-! ### Hybrid-scoring lemmas -/

theorem pyMin_le : ∀ (xs : List ℚ) (a : ℚ),
    xs.foldl min a ≤ a ∧ ∀ x ∈ xs, xs.foldl min a ≤ x := by
  intro xs
  induction xs with
  | nil => intro a; exact ⟨le_rfl, by simp⟩
  | cons b bs ih =>
    intro a
    rcases ih (min a b) with ⟨h1, h2⟩
    refine ⟨le_trans h1 (min_le_left a b), ?_⟩
    intro x hx
    rcases List.mem_cons.1 hx with hx | hx
    · subst hx
      exact le_trans h1 (min_le_right a x)
    · exact h2 x hx

theorem le_pyMax : ∀ (xs : List ℚ) (a : ℚ),
    a ≤ xs.foldl max a ∧ ∀ x ∈ xs, x ≤ xs.foldl max a := by
  intro xs
  induction xs with
  | nil => intro a; exact ⟨le_rfl, by simp⟩
  | cons b bs ih =>
    intro a
    rcases ih (max a b) with ⟨h1, h2⟩
    refine ⟨le_trans (le_max_left a b) h1, ?_⟩
    intro x hx
    rcases List.mem_cons.1 hx with hx | hx
    · subst hx
      exact le_trans (le_max_right a x) h1
    · exact h2 x hx

theorem kwMinScore_le {kw : List BM25Hit} {r : BM25Hit} (hr : r ∈ kw) :
    kwMinScore kw ≤ r.bm25_score := by
  rcases kw with _ | ⟨k0, ks⟩
  · exact absurd hr (by simp)
  · have hdef : kwMinScore (k0 :: ks) =
        (List.map BM25Hit.bm25_score ks).foldl min k0.bm25_score := rfl
    rcases List.mem_cons.1 hr with h | h
    · rw [hdef, h]
      exact (pyMin_le (List.map BM25Hit.bm25_score ks) k0.bm25_score).1
    · rw [hdef]
      exact (pyMin_le (List.map BM25Hit.bm25_score ks) k0.bm25_score).2 _
        (List.mem_map.2 ⟨r, h, rfl⟩)

theorem le_kwMaxScore {kw : List BM25Hit} {r : BM25Hit} (hr : r ∈ kw) :
    r.bm25_score ≤ kwMaxScore kw := by
  rcases kw with _ | ⟨k0, ks⟩
  · exact absurd hr (by simp)
  · have hdef : kwMaxScore (k0 :: ks) =
        (List.map BM25Hit.bm25_score ks).foldl max k0.bm25_score := rfl
    rcases List.mem_cons.1 hr with h | h
    · rw [hdef, h]
      exact (le_pyMax (List.map BM25Hit.bm25_score ks) k0.bm25_score).1
    · rw [hdef]
      exact (le_pyMax (List.map BM25Hit.bm25_score ks) k0.bm25_score).2 _
        (List.mem_map.2 ⟨r, h, rfl⟩)

theorem kwScoreRange_pos (kw : List BM25Hit) (hk : kw ≠ []) :
    0 < kwScoreRange kw := by
  rw [kwScoreRange]
  by_cases h : kwMaxScore kw ≠ kwMinScore kw
  · rw [if_pos h]
    rcases kw with _ | ⟨k0, ks⟩
    · exact absurd rfl hk
    · have h1 : kwMinScore (k0 :: ks) ≤ k0.bm25_score :=
        kwMinScore_le (List.mem_cons_self _ _)
      have h2 : k0.bm25_score ≤ kwMaxScore (k0 :: ks) :=
        le_kwMaxScore (List.mem_cons_self _ _)
      have := lt_of_le_of_ne (le_trans h1 h2) (Ne.symm h)
      linarith
  · rw [if_neg h]
    norm_num

theorem bm25Norm_nonneg {kw : List BM25Hit} {r : BM25Hit} (hk : kw ≠ [])
    (hr : r ∈ kw) :
    0 ≤ bm25Norm (kwMinScore kw) (kwScoreRange kw) r.bm25_score := by
  rw [bm25Norm]
  exact div_nonneg (by linarith [kwMinScore_le hr])
    (le_of_lt (kwScoreRange_pos kw hk))

theorem buildVecScores_lookup_mem {vec : List VecHit}
    (hn : (vec.map VecHit.id).Nodup) {h : VecHit} (hh : h ∈ vec) :
    lookupAssoc h.id (buildVecScores vec) =
      some (h.distance / vecMaxDist vec, h.meta) := by
  rw [buildVecScores]
  have main : ∀ (l : List VecHit) (d : List (List Char × (ℚ × MetaR))),
      (l.map VecHit.id).Nodup → h ∈ l →
      lookupAssoc h.id
          (l.foldl (fun d g =>
            dictInsert g.id (g.distance / vecMaxDist vec, g.meta) d) d) =
        some (h.distance / vecMaxDist vec, h.meta) := by
    intro l
    induction l with
    | nil => intro d _ hmem; exact absurd hmem (by simp)
    | cons g gs ih =>
      intro d hnod hmem
      simp only [List.map_cons, List.nodup_cons] at hnod
      rcases List.mem_cons.1 hmem with hmem | hmem
      · subst hmem
        simp only [List.foldl_cons]
        have preserve : ∀ (l2 : List VecHit)
            (d2 : List (List Char × (ℚ × MetaR))),
            h.id ∉ l2.map VecHit.id →
            lookupAssoc h.id
                (l2.foldl (fun d g =>
                  dictInsert g.id (g.distance / vecMaxDist vec, g.meta) d)
                  d2) =
              lookupAssoc h.id d2 := by
          intro l2
          induction l2 with
          | nil => intro d2 _; rfl
          | cons g2 gs2 ih2 =>
            intro d2 hnm
            simp only [List.map_cons, List.mem_cons, not_or] at hnm
            simp only [List.foldl_cons]
            rw [ih2 _ hnm.2,
              lookupAssoc_dictInsert_ne _ (fun e => hnm.1 e.symm)]
        rw [preserve gs _ hnod.1, lookupAssoc_dictInsert_self]
      · simp only [List.foldl_cons]
        refine ih _ hnod.2 hmem
  exact main vec [] hn hh

theorem buildVecScores_lookup_not_mem {vec : List VecHit} {q : List Char}
    (hq : q ∉ vec.map VecHit.id) :
    lookupAssoc q (buildVecScores vec) = none := by
  rw [buildVecScores]
  have main : ∀ (l : List VecHit) (d : List (List Char × (ℚ × MetaR))),
      q ∉ l.map VecHit.id →
      lookupAssoc q
          (l.foldl (fun d g =>
            dictInsert g.id (g.distance / vecMaxDist vec, g.meta) d) d) =
        lookupAssoc q d := by
    intro l
    induction l with
    | nil => intro d _; rfl
    | cons g gs ih =>
      intro d hnm
      simp only [List.map_cons, List.mem_cons, not_or] at hnm
      simp only [List.foldl_cons]
      rw [ih _ hnm.2, lookupAssoc_dictInsert_ne _ (fun e => hnm.1 e.symm)]
  rw [main vec [] hq]
  rfl

theorem kwFold_preserve (mn rng : ℚ) :
    ∀ (l : List BM25Hit) (q : List Char)
      (d : List (List Char × (ℚ × MetaR))), q ∉ l.map BM25Hit.chunk_id →
      lookupAssoc q (l.foldl (kwStep mn rng) d) = lookupAssoc q d := by
  intro l
  induction l with
  | nil => intro q d _; rfl
  | cons g gs ih =>
    intro q d hnm
    simp only [List.map_cons, List.mem_cons, not_or] at hnm
    simp only [List.foldl_cons]
    rw [ih _ _ hnm.2]
    rw [kwStep]
    rcases lookupAssoc g.chunk_id d with _ | ⟨old, meta⟩
    · exact lookupAssoc_dictInsert_ne _ (fun e => hnm.1 e.symm) d
    · exact lookupAssoc_dictInsert_ne _ (fun e => hnm.1 e.symm) d

theorem kwFold_lookup (mn rng : ℚ) :
    ∀ (kw : List BM25Hit), (kw.map BM25Hit.chunk_id).Nodup →
      ∀ (d : List (List Char × (ℚ × MetaR))), ∀ r ∈ kw,
        lookupAssoc r.chunk_id (kw.foldl (kwStep mn rng) d) =
          some (match lookupAssoc r.chunk_id d with
            | some (old, meta) =>
              (HYBRID_VECTOR_WEIGHT * old +
                (1 - HYBRID_VECTOR_WEIGHT) * bm25Norm mn rng r.bm25_score,
               meta)
            | none =>
              (1 / 2 +
                (1 - HYBRID_VECTOR_WEIGHT) * bm25Norm mn rng r.bm25_score,
               bm25OnlyMeta r)) := by
  have preserve : ∀ (l : List BM25Hit) (q : List Char)
      (d : List (List Char × (ℚ × MetaR))), q ∉ l.map BM25Hit.chunk_id →
      lookupAssoc q (l.foldl (kwStep mn rng) d) = lookupAssoc q d := by
    intro l
    induction l with
    | nil => intro q d _; rfl
    | cons g gs ih =>
      intro q d hnm
      simp only [List.map_cons, List.mem_cons, not_or] at hnm
      simp only [List.foldl_cons]
      rw [ih _ _ hnm.2]
      rw [kwStep]
      rcases lookupAssoc g.chunk_id d with _ | ⟨old, meta⟩
      · exact lookupAssoc_dictInsert_ne _ (fun e => hnm.1 e.symm) d
      · exact lookupAssoc_dictInsert_ne _ (fun e => hnm.1 e.symm) d
  intro kw
  induction kw with
  | nil => intro _ d r hr; exact absurd hr (by simp)
  | cons g gs ih =>
    intro hnod d r hr
    simp only [List.map_cons, List.nodup_cons] at hnod
    rcases List.mem_cons.1 hr with hr | hr
    · subst hr
      simp only [List.foldl_cons]
      rw [preserve gs _ _ hnod.1]
      rw [kwStep]
      rcases hl : lookupAssoc r.chunk_id d with _ | ⟨old, meta⟩
      · rw [lookupAssoc_dictInsert_self]
      · rw [lookupAssoc_dictInsert_self]
    · simp only [List.foldl_cons]
      rw [ih hnod.2 _ r hr]
      have hne : g.chunk_id ≠ r.chunk_id := by
        intro he
        exact hnod.1 (he ▸ List.mem_map.2 ⟨r, hr, rfl⟩)
      have : lookupAssoc r.chunk_id (kwStep mn rng d g) =
          lookupAssoc r.chunk_id d := by
        rw [kwStep]
        rcases lookupAssoc g.chunk_id d with _ | ⟨old, meta⟩
        · exact lookupAssoc_dictInsert_ne _ hne d
        · exact lookupAssoc_dictInsert_ne _ hne d
      rw [this]

/-- C1 (amended): in the hybrid merge, an id in both candidate sets scores
`w·norm_vector + (1-w)·norm_bm25` with `w = HYBRID_VECTOR_WEIGHT = 0.7`, a
keyword-only id scores `0.5 + (1-w)·norm_bm25`, and every keyword-only id's
combined score is at least `0.5` — so a keyword-only result can only
outrank a vector-candidate result whose own combined score exceeds `0.5`
(as stated, with "never outranks any vector candidate", the claim is false:
see the counterexample). -/
theorem C1_hybrid_scoring (vec : List VecHit) (kw : List BM25Hit)
    (hk : kw ≠ []) (hnv : (vec.map VecHit.id).Nodup)
    (hnk : (kw.map BM25Hit.chunk_id).Nodup) :
    (∀ h ∈ vec, ∀ r ∈ kw, h.id = r.chunk_id →
      (lookupAssoc h.id (hybridScores vec kw)).map Prod.fst =
        some (HYBRID_VECTOR_WEIGHT * (h.distance / vecMaxDist vec) +
          (1 - HYBRID_VECTOR_WEIGHT) *
            bm25Norm (kwMinScore kw) (kwScoreRange kw) r.bm25_score)) ∧
    (∀ r ∈ kw, r.chunk_id ∉ vec.map VecHit.id →
      (lookupAssoc r.chunk_id (hybridScores vec kw)).map Prod.fst =
        some (1 / 2 + (1 - HYBRID_VECTOR_WEIGHT) *
          bm25Norm (kwMinScore kw) (kwScoreRange kw) r.bm25_score)) ∧
    (∀ r ∈ kw, r.chunk_id ∉ vec.map VecHit.id → ∀ s : ℚ,
      (lookupAssoc r.chunk_id (hybridScores vec kw)).map Prod.fst = some s →
      1 / 2 ≤ s) := by
  have hunfold : hybridScores vec kw =
      kw.foldl (kwStep (kwMinScore kw) (kwScoreRange kw))
        (buildVecScores vec) := by
    rw [hybridScores, if_neg hk]
  refine ⟨?_, ?_, ?_⟩
  · intro h hh r hr hid
    rw [hunfold, hid,
      kwFold_lookup (kwMinScore kw) (kwScoreRange kw) kw hnk
        (buildVecScores vec) r hr,
      ← hid, buildVecScores_lookup_mem hnv hh]
    rfl
  · intro r hr hnot
    rw [hunfold,
      kwFold_lookup (kwMinScore kw) (kwScoreRange kw) kw hnk
        (buildVecScores vec) r hr,
      buildVecScores_lookup_not_mem hnot]
    rfl
  · intro r hr hnot s hs
    rw [hunfold,
      kwFold_lookup (kwMinScore kw) (kwScoreRange kw) kw hnk
        (buildVecScores vec) r hr,
      buildVecScores_lookup_not_mem hnot] at hs
    simp only [Option.map_some] at hs
    have hn := bm25Norm_nonneg hk hr
    have hw : (0 : ℚ) ≤ 1 - HYBRID_VECTOR_WEIGHT := by
      rw [HYBRID_VECTOR_WEIGHT]; norm_num
    have := mul_nonneg hw hn
    injection hs with hs2
    rw [← hs2]
    linarith

/-- Witness for C1 at the concrete candidate sets, exercising the
keyword-only formula on id `c`. -/
theorem C1_hybrid_scoring_witness :
    (lookupAssoc cHit.chunk_id (hybridScores vecCE kwCE)).map Prod.fst =
      some (1 / 2 + (1 - HYBRID_VECTOR_WEIGHT) *
        bm25Norm (kwMinScore kwCE) (kwScoreRange kwCE) cHit.bm25_score) :=
  (C1_hybrid_scoring vecCE kwCE (by simp [kwCE]) (by decide)
      (by decide)).2.1
    cHit (List.mem_cons_self cHit [dHit]) (by decide)

/-- Counterexample to C1 as stated: with vector candidates `a` (distance 1)
and `b` (distance 2) and keyword-only candidates `c`, `d` (BM25 -5, -1),
the keyword-only id `c` gets combined score `0.5`, strictly better (lower)
than vector candidate `b`'s score `1`, so a pure-keyword match outranks a
result from the vector candidate set. -/
theorem C1_counterexample :
    (lookupAssoc ['c'] (hybridScores vecCE kwCE)).map Prod.fst =
        some (1 / 2) ∧
      (lookupAssoc ['b'] (hybridScores vecCE kwCE)).map Prod.fst =
        some 1 ∧
      ['c'] ∉ vecCE.map VecHit.id ∧
      ['b'] ∈ vecCE.map VecHit.id ∧
      (( 1 : ℚ) / 2 < 1) := by
  have hk : kwCE ≠ [] := by simp [kwCE]
  have hnv : (vecCE.map VecHit.id).Nodup := by decide
  have hnk : (kwCE.map BM25Hit.chunk_id).Nodup := by decide
  have hnotc : cHit.chunk_id ∉ vecCE.map VecHit.id := by decide
  have hminkw : kwMinScore kwCE = -5 := by
    simp only [kwMinScore, kwCE, cHit, dHit, List.map_cons, List.map_nil,
      pyMin, List.foldl_cons, List.foldl_nil]
    rw [min_eq_left (by norm_num)]
  have hmaxkw : kwMaxScore kwCE = -1 := by
    simp only [kwMaxScore, kwCE, cHit, dHit, List.map_cons, List.map_nil,
      pyMax, List.foldl_cons, List.foldl_nil]
    rw [max_eq_right (by norm_num)]
  have hrng : kwScoreRange kwCE = 4 := by
    rw [kwScoreRange, hminkw, hmaxkw, if_pos (by norm_num)]
    norm_num
  have hmaxv : vecMaxDist vecCE = 2 := by
    simp only [vecMaxDist, vecCE, aHit, bHit, List.map_cons, List.map_nil,
      pyMax, List.foldl_cons, List.foldl_nil]
    rw [max_eq_right (by norm_num)]
    norm_num
  refine ⟨?_, ?_, by decide, by decide, by norm_num⟩
  · have h := (C1_hybrid_scoring vecCE kwCE hk hnv hnk).2.1 cHit
      (List.mem_cons_self cHit [dHit]) hnotc
    show (lookupAssoc cHit.chunk_id (hybridScores vecCE kwCE)).map Prod.fst =
      some (1 / 2)
    rw [h, hminkw, hrng]
    simp only [cHit, bm25Norm, HYBRID_VECTOR_WEIGHT]
    norm_num
  · have hb1 : lookupAssoc ['b'] (hybridScores vecCE kwCE) =
        lookupAssoc ['b'] (buildVecScores vecCE) := by
      simp only [hybridScores]
      rw [if_neg hk]
      exact kwFold_preserve _ _ kwCE ['b'] (buildVecScores vecCE) (by decide)
    have hb2 : lookupAssoc ['b'] (buildVecScores vecCE) =
        some (bHit.distance / vecMaxDist vecCE, bHit.meta) :=
      buildVecScores_lookup_mem hnv
        (List.mem_cons.2 (Or.inr (List.mem_cons_self bHit [])))
    rw [hb1, hb2, hmaxv]
    simp only [bHit, Option.map_some]
    norm_num

/-! ### Substring-test lemmas -/

theorem hasInfix_iff {sep t : List Char} :
    hasInfix sep t = true ↔ sep <:+: t := by
  induction t with
  | nil =>
    rw [hasInfix]
    simp [List.isEmpty_iff, List.infix_nil]
  | cons c rest ih =>
    rw [hasInfix, Bool.or_eq_true, List.isPrefixOf_iff_prefix, ih,
      List.infix_cons_iff]

theorem hasInfix_of_parts {sep t a b : List Char}
    (h : t = a ++ sep ++ b) : hasInfix sep t = true :=
  hasInfix_iff.2 ⟨a, b, by rw [h]⟩

theorem hasInfix_false_of_head_not_mem {c0 : Char} {ss t : List Char}
    (h : c0 ∉ t) : hasInfix (c0 :: ss) t = false := by
  rw [← Bool.not_eq_true, hasInfix_iff]
  intro hinf
  exact h (hinf.subset (List.mem_cons_self c0 ss))

/-! ### `pySplitOn` recurrences -/

theorem splitAux1_fuel (s : Char) (ss : List Char) :
    ∀ (f1 : Nat) (t : List Char) (f2 : Nat), t.length ≤ f1 →
      t.length ≤ f2 → splitAux1 s ss f1 t = splitAux1 s ss f2 t := by
  intro f1
  induction f1 with
  | zero =>
    intro t f2 h1 _
    rcases t with _ | ⟨c, cs⟩
    · rcases f2 with _ | g2 <;> rfl
    · simp at h1
  | succ g1 ih =>
    intro t f2 h1 h2
    rcases t with _ | ⟨c, cs⟩
    · rcases f2 with _ | g2 <;> rfl
    · rcases f2 with _ | g2
      · simp at h2
      · simp only [List.length_cons] at h1 h2
        rw [splitAux1, splitAux1]
        by_cases hp : (s :: ss).isPrefixOf (c :: cs) = true
        · rw [if_pos hp, if_pos hp]
          have hd : (cs.drop ss.length).length ≤ cs.length :=
            (List.drop_sublist _ _).length_le
          rw [ih (cs.drop ss.length) g2 (by omega) (by omega)]
        · rw [if_neg hp, if_neg hp, ih cs g2 (by omega) (by omega)]

theorem pySplitOn_nil (s : Char) (ss : List Char) :
    pySplitOn (s :: ss) [] = [[]] := rfl

theorem pySplitOn_cons_prefix {s c : Char} {ss t : List Char}
    (h : (s :: ss).isPrefixOf (c :: t) = true) :
    pySplitOn (s :: ss) (c :: t) =
      [] :: pySplitOn (s :: ss) (t.drop ss.length) := by
  show splitAux1 s ss (c :: t).length (c :: t) = _
  rw [List.length_cons, splitAux1, if_pos h]
  have hd : (t.drop ss.length).length ≤ t.length :=
    (List.drop_sublist _ _).length_le
  rw [splitAux1_fuel s ss t.length (t.drop ss.length)
    (t.drop ss.length).length (by omega) le_rfl]
  rfl

theorem pySplitOn_cons_nomatch {s c : Char} {ss t : List Char}
    (h : (s :: ss).isPrefixOf (c :: t) = false) :
    pySplitOn (s :: ss) (c :: t) =
      match pySplitOn (s :: ss) t with
      | [] => [[c]]
      | p :: ps => (c :: p) :: ps := by
  show splitAux1 s ss (c :: t).length (c :: t) = _
  rw [List.length_cons, splitAux1, if_neg (by simp [h])]
  rfl

theorem pySplitOn_ne_nil (s : Char) (ss : List Char) (t : List Char) :
    pySplitOn (s :: ss) t ≠ [] := by
  show splitAux1 s ss t.length t ≠ []
  rcases t with _ | ⟨c, cs⟩
  · simp [splitAux1]
  · rw [List.length_cons, splitAux1]
    by_cases hp : (s :: ss).isPrefixOf (c :: cs) = true
    · rw [if_pos hp]; simp
    · rw [if_neg hp]
      rcases splitAux1 s ss cs.length cs with _ | ⟨p, ps⟩ <;> simp

theorem pySplitOn_cons_nomatch_eq {s c : Char} {ss t : List Char}
    {p : List Char} {ps : List (List Char)}
    (h : (s :: ss).isPrefixOf (c :: t) = false)
    (hsplit : pySplitOn (s :: ss) t = p :: ps) :
    pySplitOn (s :: ss) (c :: t) = (c :: p) :: ps := by
  rw [pySplitOn_cons_nomatch h, hsplit]

/-- Scanning a block that does not contain the separator's first character
just extends the current word. -/
theorem pySplitOn_append_no_head {s : Char} {ss : List Char} :
    ∀ {w t : List Char} {p : List Char} {ps : List (List Char)}, s ∉ w →
      pySplitOn (s :: ss) t = p :: ps →
      pySplitOn (s :: ss) (w ++ t) = (w ++ p) :: ps := by
  intro w
  induction w with
  | nil => intro t p ps _ h; simpa using h
  | cons c w2 ih =>
    intro t p ps hs h
    have hc : s ≠ c := fun he => hs (he ▸ List.mem_cons_self c w2)
    have hpre : (s :: ss).isPrefixOf (c :: (w2 ++ t)) = false := by
      rw [← Bool.not_eq_true, List.isPrefixOf_iff_prefix]
      intro hp
      rcases hp with ⟨r, hr⟩
      rw [List.cons_append] at hr
      exact hc (List.head_eq_of_cons_eq hr)
    have h2 := ih (fun hm => hs (List.mem_cons.2 (Or.inr hm))) h
    rw [List.cons_append]
    rw [pySplitOn_cons_nomatch_eq hpre h2]
    rfl

/-- Splitting at an occurrence of the separator. -/
theorem pySplitOn_sep_cut {s : Char} {ss t : List Char} :
    pySplitOn (s :: ss) ((s :: ss) ++ t) = [] :: pySplitOn (s :: ss) t := by
  have hpre : (s :: ss).isPrefixOf (s :: (ss ++ t)) = true := by
    rw [List.isPrefixOf_iff_prefix]
    exact ⟨t, by simp⟩
  have := pySplitOn_cons_prefix hpre
  rw [List.cons_append, this, List.drop_append_of_le_length le_rfl]
  simp

/-- `"".split(sep)`/end of scan: a trailing separator-free block is the
last word. -/
theorem pySplitOn_no_head {s : Char} {ss : List Char} {w : List Char}
    (hs : s ∉ w) : pySplitOn (s :: ss) w = [w] := by
  have := @pySplitOn_append_no_head s ss w [] [] [] hs rfl
  simpa using this

/-- `text.split(sep)` glued back with the separator is `text`. -/
theorem intercalate_pySplitOn (s : Char) (ss : List Char) :
    ∀ (t : List Char),
      List.intercalate (s :: ss) (pySplitOn (s :: ss) t) = t
  | [] => by simp [pySplitOn_nil, List.intercalate]
  | c :: t => by
    by_cases hp : (s :: ss).isPrefixOf (c :: t) = true
    · rw [ pySplitOn_cons_prefix hp]
      rcases hsp : pySplitOn (s :: ss) (t.drop ss.length) with _ | ⟨p, ps⟩
      · exact absurd hsp (pySplitOn_ne_nil s ss _)
      · rw [intercalate_cons₂, ← hsp,
          intercalate_pySplitOn s ss (t.drop ss.length)]
        rcases (List.isPrefixOf_iff_prefix.1 hp) with ⟨r, hr⟩
        have h2 := congrArg (List.drop (s :: ss).length) hr
        rw [List.drop_append_of_le_length le_rfl] at h2
        simp only [List.drop_length, List.nil_append, List.length_cons,
          List.drop_succ_cons] at h2
        rw [h2.symm, List.nil_append, ← hr]
    · rw [pySplitOn_cons_nomatch (Bool.not_eq_true _ ▸ hp)]
      rcases hsp : pySplitOn (s :: ss) t with _ | ⟨p, ps⟩
      · exact absurd hsp (pySplitOn_ne_nil s ss _)
      · have hlast : List.intercalate (s :: ss) ((c :: p) :: ps) =
            c :: List.intercalate (s :: ss) (p :: ps) := by
          rcases ps with _ | ⟨q, qs⟩
          · simp [List.intercalate]
          · rw [intercalate_cons₂, intercalate_cons₂]
            simp
        rw [hlast, ← hsp, intercalate_pySplitOn s ss t]
termination_by t => t.length
decreasing_by
all_goals simp only [List.length_cons, List.length_drop]; omega

/-! ### `hardSplit` recurrences -/

theorem hardSplitF_fuel :
    ∀ (f1 : Nat) (t : List Char) (f2 : Nat), t.length ≤ f1 →
      t.length ≤ f2 → hardSplitF f1 t = hardSplitF f2 t := by
  intro f1
  induction f1 with
  | zero =>
    intro t f2 h1 _
    rcases t with _ | ⟨c, cs⟩
    · rcases f2 with _ | g2 <;> rfl
    · simp at h1
  | succ g1 ih =>
    intro t f2 h1 h2
    rcases t with _ | ⟨c, cs⟩
    · rcases f2 with _ | g2 <;> rfl
    · rcases f2 with _ | g2
      · simp at h2
      · simp only [List.length_cons] at h1 h2
        rw [hardSplitF, hardSplitF]
        have hd : ((c :: cs).drop (MAX_CHUNK_CHARS - OVERLAP_CHARS)).length ≤
            cs.length := by
          rw [List.length_drop]
          simp [MAX_CHUNK_CHARS, OVERLAP_CHARS]
        rw [ih ((c :: cs).drop (MAX_CHUNK_CHARS - OVERLAP_CHARS)) g2
          (by omega) (by omega)]

theorem hardSplit_nil : hardSplit [] = [] := rfl

theorem hardSplit_cons {t : List Char} (h : t ≠ []) :
    hardSplit t =
      t.take MAX_CHUNK_CHARS ::
        hardSplit (t.drop (MAX_CHUNK_CHARS - OVERLAP_CHARS)) := by
  rcases t with _ | ⟨c, cs⟩
  · exact absurd rfl h
  · show hardSplitF (c :: cs).length (c :: cs) = _
    rw [List.length_cons, hardSplitF]
    have hd : ((c :: cs).drop (MAX_CHUNK_CHARS - OVERLAP_CHARS)).length ≤
        cs.length := by
      rw [List.length_drop]
      simp [MAX_CHUNK_CHARS, OVERLAP_CHARS]
    rw [hardSplitF_fuel cs.length _ _ (by omega) le_rfl]
    rfl

/-! ### `recursive_split` / `accumParts` / `add_overlap` recurrences -/

theorem recursive_split_unfold (seps : List (List Char)) (text : List Char) :
    recursive_split seps text =
      if text.length ≤ MAX_CHUNK_CHARS then [text]
      else
        match seps with
        | [] => hardSplit text
        | sep :: rest =>
          if hasInfix sep text then
            let st := accumParts sep (recursive_split rest)
              (pySplitOn sep text) [] []
            let chunks := if st.2 = ([] : List Char) then st.1
              else st.1 ++ [st.2]
            if chunks = [] then [text] else chunks
          else recursive_split rest text := by
  rw [recursive_split.eq_def]

theorem rs_le {seps : List (List Char)} {text : List Char}
    (h : text.length ≤ MAX_CHUNK_CHARS) :
    recursive_split seps text = [text] := by
  rw [recursive_split_unfold, if_pos h]

theorem rs_gt_nil {text : List Char} (h : MAX_CHUNK_CHARS < text.length) :
    recursive_split [] text = hardSplit text := by
  rw [recursive_split_unfold, if_neg (by omega)]

theorem rs_gt_noinfix {sep text : List Char} {rest : List (List Char)}
    (h : MAX_CHUNK_CHARS < text.length) (hi : hasInfix sep text = false) :
    recursive_split (sep :: rest) text = recursive_split rest text := by
  rw [recursive_split_unfold, if_neg (by omega)]
  show (if hasInfix sep text then _ else recursive_split rest text) = _
  rw [if_neg (by simp [hi])]

theorem rs_gt_infix {sep text : List Char} {rest : List (List Char)}
    (h : MAX_CHUNK_CHARS < text.length) (hi : hasInfix sep text = true) :
    recursive_split (sep :: rest) text =
      (if (if (accumParts sep (recursive_split rest)
              (pySplitOn sep text) [] []).2 = ([] : List Char) then
            (accumParts sep (recursive_split rest)
              (pySplitOn sep text) [] []).1
          else (accumParts sep (recursive_split rest)
              (pySplitOn sep text) [] []).1 ++
            [(accumParts sep (recursive_split rest)
              (pySplitOn sep text) [] []).2]) = [] then [text]
        else
          if (accumParts sep (recursive_split rest)
              (pySplitOn sep text) [] []).2 = ([] : List Char) then
            (accumParts sep (recursive_split rest)
              (pySplitOn sep text) [] []).1
          else (accumParts sep (recursive_split rest)
              (pySplitOn sep text) [] []).1 ++
            [(accumParts sep (recursive_split rest)
              (pySplitOn sep text) [] []).2]) := by
  rw [recursive_split_unfold, if_neg (by omega)]
  show (if hasInfix sep text then _ else recursive_split rest text) = _
  rw [if_pos hi]

theorem accumParts_nil (sep : List Char) (f : List Char → List (List Char))
    (ch : List (List Char)) (cur : List Char) :
    accumParts sep f [] ch cur = (ch, cur) := rfl

theorem accumParts_cons (sep : List Char) (f : List Char → List (List Char))
    (p : List Char) (ps : List (List Char)) (ch : List (List Char))
    (cur : List Char) :
    accumParts sep f (p :: ps) ch cur =
      if (if cur = [] then p else cur ++ sep ++ p).length ≤
          MAX_CHUNK_CHARS then
        accumParts sep f ps ch (if cur = [] then p else cur ++ sep ++ p)
      else if MAX_CHUNK_CHARS < p.length then
        accumParts sep f ps
          ((if cur = [] then ch else ch ++ [cur]) ++ f p) cur
      else accumParts sep f ps (if cur = [] then ch else ch ++ [cur]) p :=
  rfl

theorem add_overlap_nil : add_overlap [] = [] := rfl

theorem add_overlap_singleton (c : List Char) : add_overlap [c] = [c] := rfl

theorem add_overlap_cons₂ (c c2 : List Char) (cs : List (List Char)) :
    add_overlap (c :: c2 :: cs) = c :: addOverlapGo c (c2 :: cs) := rfl

/-! ### Coverage: nothing but separator characters is ever dropped -/

theorem keepContent_append (a b : List Char) :
    keepContent (a ++ b) = keepContent a ++ keepContent b := by
  simp [keepContent]

theorem keepContent_sep {sep : List Char}
    (h : ∀ c ∈ sep, sepChar c = true) : keepContent sep = [] := by
  rw [keepContent, List.filter_eq_nil_iff]
  intro c hc
  simp [h c hc]

theorem keepContent_intercalate {sep : List Char}
    (h : ∀ c ∈ sep, sepChar c = true) :
    ∀ (parts : List (List Char)),
      keepContent (List.intercalate sep parts) =
        (parts.map keepContent).flatten
  | [] => by simp [List.intercalate, keepContent]
  | [p] => by simp [List.intercalate, keepContent]
  | p :: q :: ps => by
    rw [intercalate_cons₂, keepContent_append, keepContent_append,
      keepContent_sep h, keepContent_intercalate h (q :: ps)]
    simp

theorem hardSplit_cover : ∀ (t : List Char), t <+ (hardSplit t).flatten
  | [] => by simp [hardSplit_nil]
  | c :: cs => by
    rw [hardSplit_cons (List.cons_ne_nil c cs), List.flatten_cons]
    have hsplit := (List.take_append_drop MAX_CHUNK_CHARS (c :: cs)).symm
    have hdd : (c :: cs).drop MAX_CHUNK_CHARS =
        ((c :: cs).drop (MAX_CHUNK_CHARS - OVERLAP_CHARS)).drop
          OVERLAP_CHARS := by
      rw [List.drop_drop]
      norm_num [MAX_CHUNK_CHARS, OVERLAP_CHARS]
    calc c :: cs
        = (c :: cs).take MAX_CHUNK_CHARS ++ (c :: cs).drop MAX_CHUNK_CHARS :=
          hsplit
      _ <+ (c :: cs).take MAX_CHUNK_CHARS ++
          (hardSplit ((c :: cs).drop (MAX_CHUNK_CHARS -
            OVERLAP_CHARS))).flatten := by
          refine List.Sublist.append (List.Sublist.refl _) ?_
          rw [hdd]
          exact (List.drop_sublist _ _).trans
            (hardSplit_cover ((c :: cs).drop (MAX_CHUNK_CHARS -
              OVERLAP_CHARS)))
termination_by t => t.length
decreasing_by
simp only [List.length_cons, List.length_drop, MAX_CHUNK_CHARS,
  OVERLAP_CHARS]
omega

theorem addOverlapGo_cover :
    ∀ (cs : List (List Char)) (prev : List Char),
      cs.flatten <+ (addOverlapGo prev cs).flatten := by
  intro cs
  induction cs with
  | nil => intro prev; exact List.Sublist.refl _
  | cons c cs2 ih =>
    intro prev
    rw [addOverlapGo, List.flatten_cons, List.flatten_cons]
    refine List.Sublist.append ?_ (ih c)
    exact List.sublist_append_right (overlapTail prev ++ [' ']) c

theorem add_overlap_cover (chunks : List (List Char)) :
    chunks.flatten <+ (add_overlap chunks).flatten := by
  rcases chunks with _ | ⟨c, _ | ⟨c2, cs⟩⟩
  · exact List.Sublist.refl _
  · exact List.Sublist.refl _
  · rw [add_overlap_cons₂, List.flatten_cons, List.flatten_cons]
    exact List.Sublist.append (List.Sublist.refl c)
      (addOverlapGo_cover (c2 :: cs) c)

/-- The accumulation loop never loses non-separator content: the content of
the flushed chunks, the running `current` and the unprocessed parts is a
subsequence of the content of the final chunks plus final `current`. -/
theorem accum_cover {sep : List Char}
    (hsep : ∀ c ∈ sep, sepChar c = true)
    {f : List Char → List (List Char)}
    (hf : ∀ t, keepContent t <+ keepContent (f t).flatten) :
    ∀ (parts : List (List Char)) (ch : List (List Char)) (cur : List Char),
      keepContent ch.flatten ++ keepContent cur ++
          ((parts.map keepContent).flatten) <+
        keepContent (accumParts sep f parts ch cur).1.flatten ++
          keepContent (accumParts sep f parts ch cur).2 := by
  intro parts
  induction parts with
  | nil =>
    intro ch cur
    rw [accumParts_nil]
    simp
  | cons p ps ih =>
    intro ch cur
    rw [accumParts_cons]
    have hch1 : keepContent
        (if cur = [] then ch else ch ++ [cur]).flatten =
        keepContent ch.flatten ++ keepContent cur := by
      by_cases hc : cur = []
      · rw [if_pos hc, hc]
        simp [keepContent]
      · rw [if_neg hc, List.flatten_append, keepContent_append]
        simp [keepContent]
    by_cases h1 : (if cur = [] then p else cur ++ sep ++ p).length ≤
        MAX_CHUNK_CHARS
    · rw [if_pos h1]
      have hcand : keepContent (if cur = [] then p else cur ++ sep ++ p) =
          keepContent cur ++ keepContent p := by
        by_cases hc : cur = []
        · rw [if_pos hc, hc]
          simp [keepContent]
        · rw [if_neg hc, keepContent_append, keepContent_append,
            keepContent_sep hsep]
          simp
      have := ih ch (if cur = [] then p else cur ++ sep ++ p)
      rw [hcand] at this
      simpa [List.append_assoc] using this
    · rw [if_neg h1]
      by_cases h2 : MAX_CHUNK_CHARS < p.length
      · rw [if_pos h2]
        have := ih ((if cur = [] then ch else ch ++ [cur]) ++ f p) cur
        rw [List.flatten_append, keepContent_append, hch1] at this
        refine List.Sublist.trans ?_ this
        simp only [List.map_cons, List.flatten_cons, List.append_assoc]
        refine List.Sublist.append (List.Sublist.refl _) ?_
        refine List.Sublist.append (List.Sublist.refl _) ?_
        rw [← List.append_assoc]
        refine List.Sublist.append ?_ (List.Sublist.refl _)
        exact (hf p).trans (List.sublist_append_left _ _)
      · rw [if_neg h2]
        have := ih (if cur = [] then ch else ch ++ [cur]) p
        rw [hch1] at this
        simpa [List.append_assoc] using this

/-- Assembling the final chunk list of `recursive_split` from the
accumulator state preserves coverage. -/
theorem accum_assemble {stc : List (List Char)} {std text : List Char}
    (hc : keepContent text <+
      keepContent stc.flatten ++ keepContent std) :
    keepContent text <+
      keepContent
        (if (if std = ([] : List Char) then stc else stc ++ [std]) = []
          then [text]
          else if std = ([] : List Char) then stc else stc ++ [std]).flatten
    := by
  by_cases hd : std = ([] : List Char)
  · subst hd
    by_cases he : stc = []
    · subst he
      simp [keepContent]
    · have hred : (if (if ([] : List Char) = [] then stc
            else stc ++ [([] : List Char)]) = [] then [text]
          else if ([] : List Char) = [] then stc
            else stc ++ [([] : List Char)]) = stc := by
        simp [he]
      rw [hred]
      simpa [keepContent] using hc
  · rw [if_neg hd]
    rw [if_neg (by simp)]
    rw [List.flatten_append, keepContent_append]
    simpa using hc

/-- `recursive_split` never loses non-separator content. -/
theorem recursive_split_cover :
    ∀ (seps : List (List Char)),
      (∀ sp ∈ seps, sp ≠ [] ∧ ∀ c ∈ sp, sepChar c = true) →
      ∀ (text : List Char),
        keepContent text <+
          keepContent (recursive_split seps text).flatten := by
  intro seps
  induction seps with
  | nil =>
    intro _ text
    by_cases h : text.length ≤ MAX_CHUNK_CHARS
    · rw [rs_le h]
      simp
    · rw [rs_gt_nil (by omega)]
      exact (hardSplit_cover text).filter _
  | cons sp rest ih =>
    intro hok text
    have hrest : ∀ sp2 ∈ rest, sp2 ≠ [] ∧ ∀ c ∈ sp2, sepChar c = true :=
      fun sp2 h2 => hok sp2 (List.mem_cons.2 (Or.inr h2))
    rcases hok sp (List.mem_cons_self _ _) with ⟨hne, hsepchars⟩
    by_cases h : text.length ≤ MAX_CHUNK_CHARS
    · rw [rs_le h]
      simp
    · by_cases hi : hasInfix sp text = true
      · rw [ rs_gt_infix (by omega) hi]
        rcases sp with _ | ⟨s, ss⟩
        · exact absurd rfl hne
        · have hcut := accum_cover hsepchars
            (fun t => ih hrest t) (pySplitOn (s :: ss) text) [] []
          have htext : keepContent text =
              ((pySplitOn (s :: ss) text).map keepContent).flatten := by
            rw [← keepContent_intercalate hsepchars
              (pySplitOn (s :: ss) text), intercalate_pySplitOn s ss text]
          refine accum_assemble ?_
          rw [htext]
          simpa [keepContent] using hcut
      · rw [ rs_gt_noinfix (by omega) (Bool.not_eq_true _ ▸ hi)]
        exact ih hrest text

/-- C3 (amended): for every exchange list and in-range index, the fragments
produced by `create_chunks_with_context` carry `chunk_index = 0 ..
total_chunks - 1` in order with no gaps, and the concatenation of the
fragments' text covers the combined exchange text with nothing lost
**except separator characters** (`'\n'`, `'.'`, `'!'`, `'?'`, `' '`), which
the splitter drops at fragment boundaries (see the counterexample for such
a loss, which refutes the unqualified claim). -/
theorem C3_split_indices_and_coverage (exchanges : List (Message × Message))
    (i : Nat) (h : i < exchanges.length) :
    (∀ k (hk : k < (create_chunks_with_context exchanges i).length),
        ((create_chunks_with_context exchanges i).get ⟨k, hk⟩).chunk_index =
            (k : Int) ∧
          ((create_chunks_with_context exchanges i).get ⟨k, hk⟩).total_chunks
            = ((create_chunks_with_context exchanges i).length : Int)) ∧
      keepContent (exchangeContextText exchanges i) <+
        keepContent
          (((create_chunks_with_context exchanges i).map Chunk.text).flatten)
    := by
  have hget : exchanges[i]? =
      some ((exchanges.get ⟨i, h⟩).1, (exchanges.get ⟨i, h⟩).2) := by
    rw [List.getElem?_eq_getElem h]
    simp [List.get_eq_getElem]
  by_cases hlen : (exchangeContextText exchanges i).length ≤ MAX_CHUNK_CHARS
  · have hcs : create_chunks_with_context exchanges i =
        [{ id := (exchanges.get ⟨i, h⟩).2.uuid,
           text := exchangeContextText exchanges i,
           timestamp := (exchanges.get ⟨i, h⟩).2.timestamp,
           session_id := (exchanges.get ⟨i, h⟩).2.session_id,
           turn_index := (i : Int) }] := by
      simp only [create_chunks_with_context, hget, if_pos hlen]
    rw [hcs]
    constructor
    · intro k hk
      have hk0 : k = 0 := by simpa using Nat.lt_one_iff.1 (by simpa using hk)
      subst hk0
      exact ⟨rfl, rfl⟩
    · simp
  · have hcs : create_chunks_with_context exchanges i =
        ((add_overlap (recursive_split SEPARATORS
            (exchangeContextText exchanges i))).enum).map (fun q =>
          { id := if (add_overlap (recursive_split SEPARATORS
                (exchangeContextText exchanges i))).length > 1 then
                (exchanges.get ⟨i, h⟩).2.uuid ++ ['-'] ++ Nat.toDigits 10 q.1
              else (exchanges.get ⟨i, h⟩).2.uuid,
            text := q.2, timestamp := (exchanges.get ⟨i, h⟩).2.timestamp,
            session_id := (exchanges.get ⟨i, h⟩).2.session_id,
            turn_index := (i : Int),
            parent_turn_id := (exchanges.get ⟨i, h⟩).2.uuid,
            chunk_index := (q.1 : Int),
            total_chunks := ((add_overlap (recursive_split SEPARATORS
                (exchangeContextText exchanges i))).length : Int) }) := by
      simp only [create_chunks_with_context, hget, if_neg hlen]
    have hmap : ∀ (parts : List (List Char)) (base ts sid : List Char)
        (ti : Int),
        ((parts.enum).map (fun q =>
          ({ id := if parts.length > 1 then
               base ++ ['-'] ++ Nat.toDigits 10 q.1 else base,
             text := q.2, timestamp := ts, session_id := sid,
             turn_index := ti, parent_turn_id := base,
             chunk_index := (q.1 : Int),
             total_chunks := (parts.length : Int) } : Chunk))).map
          Chunk.text = parts := by
      intro parts base ts sid ti
      rw [List.map_map]
      have hfun : (Chunk.text ∘ fun q : Nat × List Char =>
          ({ id := if parts.length > 1 then
               base ++ ['-'] ++ Nat.toDigits 10 q.1 else base,
             text := q.2, timestamp := ts, session_id := sid,
             turn_index := ti, parent_turn_id := base,
             chunk_index := (q.1 : Int),
             total_chunks := (parts.length : Int) } : Chunk)) = Prod.snd :=
        funext fun q => rfl
      rw [hfun, List.enum_map_snd]
    rw [hcs]
    constructor
    · intro k hk
      simp only [List.get_eq_getElem, List.length_map, List.enum_length,
        List.getElem_map, List.getElem_enum] at hk ⊢
      exact ⟨trivial, trivial⟩
    · rw [hmap]
      have h1 := recursive_split_cover SEPARATORS (by decide)
        (exchangeContextText exchanges i)
      have h2 := (add_overlap_cover
        (recursive_split SEPARATORS (exchangeContextText exchanges i))).filter
        (fun c => !sepChar c)
      exact h1.trans h2

/-- Witness for C3 at the concrete oversized exchange `ex3`. -/
theorem C3_split_indices_and_coverage_witness :
    (∀ k (hk : k < (create_chunks_with_context ex3 0).length),
        ((create_chunks_with_context ex3 0).get ⟨k, hk⟩).chunk_index =
            (k : Int) ∧
          ((create_chunks_with_context ex3 0).get ⟨k, hk⟩).total_chunks
            = ((create_chunks_with_context ex3 0).length : Int)) ∧
      keepContent (exchangeContextText ex3 0) <+
        keepContent
          (((create_chunks_with_context ex3 0).map Chunk.text).flatten) :=
  C3_split_indices_and_coverage ex3 0 (by decide)

/-! ### Symbolic evaluation of the split scenarios

The scenario texts are too large to evaluate inside the kernel, so the
split pipeline is evaluated by rewriting: `pySplitOn` via the scan
recurrences, `accumParts` step by step, and `hardSplit` on `replicate`
via `take_replicate` / `drop_replicate`. -/

theorem exCtx3 :
    exchangeContextText ex3 0 = P1ce ++ '\n' :: '\n' :: P2ce := by
  simp [exchangeContextText, ex3, CONTEXT_BEFORE, CONTEXT_AFTER,
    List.intercalate, fmtExchange, mU3, mA3, P1ce, P2ce, LITU, LITA,
    -List.reduceReplicate]

theorem P1ce_len : P1ce.length = 800 := by
  show (LITU ++ List.replicate 794 'u').length = 800
  rw [List.length_append, List.length_replicate]
  decide

theorem P2ce_len : P2ce.length = 794 := by
  show (LITA ++ List.replicate 783 'a').length = 794
  rw [List.length_append, List.length_replicate]
  decide

theorem P1ce_ne_nil : P1ce ≠ [] := by
  intro h
  have h2 := congrArg List.length h
  rw [P1ce_len] at h2
  exact absurd h2 (by decide)

theorem P2ce_ne_nil : P2ce ≠ [] := by
  intro h
  have h2 := congrArg List.length h
  rw [P2ce_len] at h2
  exact absurd h2 (by decide)

theorem nl_not_mem_P1ce : '\n' ∉ P1ce := by
  show '\n' ∉ LITU ++ List.replicate 794 'u'
  intro hm
  rcases List.mem_append.1 hm with h | h
  · exact absurd h (by decide)
  · exact absurd (List.eq_of_mem_replicate h) (by decide)

theorem nl_not_mem_P2ce : '\n' ∉ P2ce := by
  show '\n' ∉ LITA ++ List.replicate 783 'a'
  intro hm
  rcases List.mem_append.1 hm with h | h
  · exact absurd h (by decide)
  · exact absurd (List.eq_of_mem_replicate h) (by decide)

theorem split3 :
    pySplitOn ['\n', '\n'] (exchangeContextText ex3 0) = [P1ce, P2ce] := by
  rw [exCtx3]
  have h2 : pySplitOn ['\n', '\n'] P2ce = [P2ce] :=
    pySplitOn_no_head nl_not_mem_P2ce
  have h1 : pySplitOn ['\n', '\n'] (('\n' :: ['\n']) ++ P2ce) =
      [] :: [P2ce] := by
    rw [pySplitOn_sep_cut, h2]
  have h0 := pySplitOn_append_no_head nl_not_mem_P1ce h1
  simpa using h0

theorem rs3 :
    recursive_split SEPARATORS (exchangeContextText ex3 0) =
      [P1ce, P2ce] := by
  have hlen : MAX_CHUNK_CHARS < (exchangeContextText ex3 0).length := by
    rw [exCtx3, List.length_append, List.length_cons, List.length_cons,
      P1ce_len, P2ce_len]
    decide
  have hform : exchangeContextText ex3 0 = P1ce ++ ['\n', '\n'] ++ P2ce := by
    rw [exCtx3]
    simp
  have hinf : hasInfix ['\n', '\n'] (exchangeContextText ex3 0) = true :=
    hasInfix_of_parts hform
  have hst : accumParts ['\n', '\n']
      (recursive_split [['\n'], ['.', ' '], ['!', ' '], ['?', ' '], [' ']])
      (pySplitOn ['\n', '\n'] (exchangeContextText ex3 0)) [] [] =
      ([P1ce], P2ce) := by
    rw [split3, accumParts_cons]
    have hif1 : (if ([] : List Char) = [] then P1ce
        else [] ++ ['\n', '\n'] ++ P1ce) = P1ce := if_pos rfl
    rw [hif1, if_pos ((by rw [P1ce_len]; decide) :
      P1ce.length ≤ MAX_CHUNK_CHARS), accumParts_cons]
    have hif2 : (if P1ce = [] then P2ce
        else P1ce ++ ['\n', '\n'] ++ P2ce) =
        P1ce ++ ['\n', '\n'] ++ P2ce := if_neg P1ce_ne_nil
    rw [hif2]
    have hgt : ¬ (P1ce ++ ['\n', '\n'] ++ P2ce).length ≤
        MAX_CHUNK_CHARS := by
      rw [List.length_append, List.length_append, P1ce_len, P2ce_len]
      decide
    rw [if_neg hgt, if_neg ((by rw [P2ce_len]; decide) :
      ¬ MAX_CHUNK_CHARS < P2ce.length)]
    have hif3 : (if P1ce = [] then ([] : List (List Char))
        else [] ++ [P1ce]) = [P1ce] := by
      rw [if_neg P1ce_ne_nil]
      rfl
    rw [hif3, accumParts_nil]
  show recursive_split (['\n', '\n'] ::
      [['\n'], ['.', ' '], ['!', ' '], ['?', ' '], [' ']])
    (exchangeContextText ex3 0) = [P1ce, P2ce]
  rw [ rs_gt_infix hlen hinf, hst]
  simp [P2ce_ne_nil]

theorem parts3 :
    add_overlap (recursive_split SEPARATORS (exchangeContextText ex3 0)) =
      [P1ce, overlapTail P1ce ++ [' '] ++ P2ce] := by
  rw [rs3]
  rfl

/-- Unfolding `create_chunks_with_context` in the oversized branch. -/
theorem create_chunks_of_long (exchanges : List (Message × Message))
    (i : Nat) (u a : Message) (hget : exchanges[i]? = some (u, a))
    (hlen : ¬ (exchangeContextText exchanges i).length ≤ MAX_CHUNK_CHARS) :
    create_chunks_with_context exchanges i =
      ((add_overlap (recursive_split SEPARATORS
          (exchangeContextText exchanges i))).enum).map (fun q =>
        { id := if (add_overlap (recursive_split SEPARATORS
              (exchangeContextText exchanges i))).length > 1 then
              a.uuid ++ ['-'] ++ Nat.toDigits 10 q.1
            else a.uuid,
          text := q.2, timestamp := a.timestamp,
          session_id := a.session_id, turn_index := (i : Int),
          parent_turn_id := a.uuid, chunk_index := (q.1 : Int),
          total_chunks := ((add_overlap (recursive_split SEPARATORS
              (exchangeContextText exchanges i))).length : Int) }) := by
  simp only [create_chunks_with_context, hget, if_neg hlen]

/-- Mapping `Chunk.text` back out of the oversized-branch records. -/
theorem map_text_enum_map (parts : List (List Char))
    (base ts sid : List Char) (ti : Int) :
    ((parts.enum).map (fun q =>
      ({ id := if parts.length > 1 then
           base ++ ['-'] ++ Nat.toDigits 10 q.1 else base,
         text := q.2, timestamp := ts, session_id := sid,
         turn_index := ti, parent_turn_id := base,
         chunk_index := (q.1 : Int),
         total_chunks := (parts.length : Int) } : Chunk))).map
      Chunk.text = parts := by
  rw [List.map_map]
  have hfun : (Chunk.text ∘ fun q : Nat × List Char =>
      ({ id := if parts.length > 1 then
           base ++ ['-'] ++ Nat.toDigits 10 q.1 else base,
         text := q.2, timestamp := ts, session_id := sid,
         turn_index := ti, parent_turn_id := base,
         chunk_index := (q.1 : Int),
         total_chunks := (parts.length : Int) } : Chunk)) = Prod.snd :=
    funext fun q => rfl
  rw [hfun, List.enum_map_snd]

theorem create_chunks_texts_of_long (exchanges : List (Message × Message))
    (i : Nat) (u a : Message) (hget : exchanges[i]? = some (u, a))
    (hlen : ¬ (exchangeContextText exchanges i).length ≤ MAX_CHUNK_CHARS) :
    (create_chunks_with_context exchanges i).map Chunk.text =
      add_overlap (recursive_split SEPARATORS
        (exchangeContextText exchanges i)) := by
  rw [create_chunks_of_long exchanges i u a hget hlen]
  exact map_text_enum_map _ _ _ _ _

theorem create_chunks_parent_of_long (exchanges : List (Message × Message))
    (i : Nat) (u a : Message) (hget : exchanges[i]? = some (u, a))
    (hlen : ¬ (exchangeContextText exchanges i).length ≤ MAX_CHUNK_CHARS) :
    ∀ c ∈ create_chunks_with_context exchanges i,
      c.parent_turn_id = a.uuid := by
  intro c hc
  rw [create_chunks_of_long exchanges i u a hget hlen] at hc
  rcases List.mem_map.1 hc with ⟨q, _, rfl⟩
  rfl

theorem hlen3ex :
    ¬ (exchangeContextText ex3 0).length ≤ MAX_CHUNK_CHARS := by
  rw [exCtx3, List.length_append, List.length_cons, List.length_cons,
    P1ce_len, P2ce_len]
  decide

theorem cs3_texts :
    (create_chunks_with_context ex3 0).map Chunk.text =
      [P1ce, overlapTail P1ce ++ [' '] ++ P2ce] := by
  rw [create_chunks_texts_of_long ex3 0 mU3 mA3 rfl hlen3ex, parts3]

theorem count_nl_P1ce : P1ce.count '\n' = 0 := by
  show (LITU ++ List.replicate 794 'u').count '\n' = 0
  rw [List.count_append, List.count_replicate]
  decide

theorem count_nl_P2ce : P2ce.count '\n' = 0 := by
  show (LITA ++ List.replicate 783 'a').count '\n' = 0
  rw [List.count_append, List.count_replicate]
  decide

/-- C3's unqualified coverage claim is false: in the separator-loss
scenario `ex3` the two `'\n'` characters of the original exchange text
appear in no fragment, so the original text is not even a sublist of the
concatenation of the fragments' texts — the `"\n\n"` separator is lost at
the fragment boundary. -/
theorem C3_counterexample :
    ¬ (exchangeContextText ex3 0 <+
        ((create_chunks_with_context ex3 0).map Chunk.text).flatten) := by
  intro hsub
  rw [cs3_texts, exCtx3] at hsub
  have hc := hsub.count_le '\n'
  have hov : (overlapTail P1ce).count '\n' ≤ 0 := by
    have h1 : overlapTail P1ce <+ P1ce := List.drop_sublist _ _
    have h2 := h1.count_le '\n'
    rw [count_nl_P1ce] at h2
    exact h2
  have hsp : ([' '] : List Char).count '\n' = 0 := by decide
  have hL : (P1ce ++ '\n' :: '\n' :: P2ce).count '\n' = 2 := by
    rw [List.count_append, count_nl_P1ce, List.count_cons, List.count_cons,
      count_nl_P2ce]
    decide
  have hR : (([P1ce, overlapTail P1ce ++ [' '] ++ P2ce] :
      List (List Char)).flatten).count '\n' ≤ 0 := by
    show (P1ce ++ ((overlapTail P1ce ++ [' '] ++ P2ce) ++ [])).count '\n' ≤ 0
    rw [List.append_nil, List.count_append, List.count_append,
      List.count_append, count_nl_P1ce, count_nl_P2ce, hsp]
    omega
  rw [hL] at hc
  omega

/-! ### Symbolic evaluation of the 6400-character scenario `ex2` -/

theorem not_mem_A2 {c : Char} (h1 : c ∉ LITA) (h2 : c ≠ 'x') :
    c ∉ LITA ++ List.replicate 6400 'x' := by
  intro hm
  rcases List.mem_append.1 hm with h | h
  · exact h1 h
  · exact h2 (List.eq_of_mem_replicate h)

theorem exCtx2 :
    exchangeContextText ex2 0 =
      U2 ++ '\n' :: '\n' :: (LITA ++ List.replicate 6400 'x') := by
  simp [exchangeContextText, ex2, CONTEXT_BEFORE, CONTEXT_AFTER,
    List.intercalate, fmtExchange, mU2, mA2, U2, LITU, LITA,
    -List.reduceReplicate]

theorem U2_len : U2.length = 8 := by decide

theorem A2_len : (LITA ++ List.replicate 6400 'x').length = 6411 := by
  rw [List.length_append, List.length_replicate]
  decide

theorem U2_ne_nil : U2 ≠ [] := by decide

theorem LITA0_ne_nil : LITA0 ≠ [] := by decide

theorem nl_not_mem_U2 : '\n' ∉ U2 := by decide

theorem nl_not_mem_A2 : '\n' ∉ LITA ++ List.replicate 6400 'x' :=
  not_mem_A2 (by decide) (by decide)

theorem dot_not_mem_A2 : '.' ∉ LITA ++ List.replicate 6400 'x' :=
  not_mem_A2 (by decide) (by decide)

theorem bang_not_mem_A2 : '!' ∉ LITA ++ List.replicate 6400 'x' :=
  not_mem_A2 (by decide) (by decide)

theorem qm_not_mem_A2 : '?' ∉ LITA ++ List.replicate 6400 'x' :=
  not_mem_A2 (by decide) (by decide)

theorem sp_not_mem_LITA0 : ' ' ∉ LITA0 := by decide

theorem sp_not_mem_X : ' ' ∉ List.replicate 6400 'x' := by
  intro hm
  exact absurd (List.eq_of_mem_replicate hm) (by decide)

theorem split2 :
    pySplitOn ['\n', '\n'] (exchangeContextText ex2 0) =
      [U2, LITA ++ List.replicate 6400 'x'] := by
  rw [exCtx2]
  have h2 : pySplitOn ['\n', '\n'] (LITA ++ List.replicate 6400 'x') =
      [LITA ++ List.replicate 6400 'x'] := pySplitOn_no_head nl_not_mem_A2
  have h1 : pySplitOn ['\n', '\n']
      (('\n' :: ['\n']) ++ (LITA ++ List.replicate 6400 'x')) =
      [] :: [LITA ++ List.replicate 6400 'x'] := by
    rw [pySplitOn_sep_cut, h2]
  have h0 := pySplitOn_append_no_head nl_not_mem_U2 h1
  simpa [-List.reduceReplicate] using h0

theorem A2_form :
    LITA ++ List.replicate 6400 'x' =
      LITA0 ++ ([' '] ++ List.replicate 6400 'x') := by
  have h : LITA = LITA0 ++ [' '] := by decide
  rw [h, List.append_assoc]

theorem splitSp :
    pySplitOn [' '] (LITA ++ List.replicate 6400 'x') =
      [LITA0, List.replicate 6400 'x'] := by
  rw [A2_form]
  have h2 : pySplitOn [' '] (List.replicate 6400 'x') =
      [List.replicate 6400 'x'] := pySplitOn_no_head sp_not_mem_X
  have h1 : pySplitOn [' '] ([' '] ++ List.replicate 6400 'x') =
      [] :: [List.replicate 6400 'x'] := by
    rw [pySplitOn_sep_cut, h2]
  have h0 := pySplitOn_append_no_head sp_not_mem_LITA0 h1
  simpa [-List.reduceReplicate] using h0

theorem repl_ne_nil {n : Nat} (h : 0 < n) :
    List.replicate n 'x' ≠ [] := by
  intro he
  rw [List.replicate_eq_nil_iff] at he
  omega

theorem hs_step (n : Nat) (h1 : MAX_CHUNK_CHARS < n) :
    hardSplit (List.replicate n 'x') =
      List.replicate 1400 'x' ::
        hardSplit (List.replicate (n - 1120) 'x') := by
  have h0 : 0 < n := lt_of_le_of_lt (Nat.zero_le _) h1
  rw [hardSplit_cons (repl_ne_nil h0), List.take_replicate,
    List.drop_replicate]
  have hmin : min MAX_CHUNK_CHARS n = 1400 := Nat.min_eq_left (le_of_lt h1)
  have hsub : MAX_CHUNK_CHARS - OVERLAP_CHARS = 1120 := by decide
  rw [hmin, hsub]

theorem hs800 : hardSplit (List.replicate 800 'x') =
    [List.replicate 800 'x'] := by
  rw [hardSplit_cons (repl_ne_nil (by decide)), List.take_replicate,
    List.drop_replicate]
  have hmin : min MAX_CHUNK_CHARS 800 = 800 := by decide
  have hsub : (800 : Nat) - (MAX_CHUNK_CHARS - OVERLAP_CHARS) = 0 := by
    decide
  rw [hmin, hsub]
  rfl

theorem hs64 : hardSplit (List.replicate 6400 'x') =
    [R14, R14, R14, R14, R14, R8] := by
  rw [hs_step 6400 (by decide), (by decide : (6400 : Nat) - 1120 = 5280)]
  rw [hs_step 5280 (by decide), (by decide : (5280 : Nat) - 1120 = 4160)]
  rw [hs_step 4160 (by decide), (by decide : (4160 : Nat) - 1120 = 3040)]
  rw [hs_step 3040 (by decide), (by decide : (3040 : Nat) - 1120 = 1920)]
  rw [hs_step 1920 (by decide), (by decide : (1920 : Nat) - 1120 = 800)]
  rw [hs800]
  rfl

theorem rsA2 :
    recursive_split [['\n'], ['.', ' '], ['!', ' '], ['?', ' '], [' ']]
      (LITA ++ List.replicate 6400 'x') =
      [LITA0, R14, R14, R14, R14, R14, R8, LITA0] := by
  have hlen : MAX_CHUNK_CHARS <
      (LITA ++ List.replicate 6400 'x').length := by
    rw [A2_len]
    decide
  rw [ rs_gt_noinfix hlen (hasInfix_false_of_head_not_mem nl_not_mem_A2)]
  rw [ rs_gt_noinfix hlen (hasInfix_false_of_head_not_mem dot_not_mem_A2)]
  rw [ rs_gt_noinfix hlen (hasInfix_false_of_head_not_mem bang_not_mem_A2)]
  rw [ rs_gt_noinfix hlen (hasInfix_false_of_head_not_mem qm_not_mem_A2)]
  have hform2 : LITA ++ List.replicate 6400 'x' =
      LITA0 ++ [' '] ++ List.replicate 6400 'x' := by
    rw [A2_form, ← List.append_assoc]
  have hinf : hasInfix [' '] (LITA ++ List.replicate 6400 'x') = true :=
    hasInfix_of_parts hform2
  have hst : accumParts [' '] (recursive_split [])
      (pySplitOn [' '] (LITA ++ List.replicate 6400 'x')) [] [] =
      ([LITA0] ++ recursive_split [] (List.replicate 6400 'x'), LITA0) := by
    rw [splitSp, accumParts_cons]
    have hif1 : (if ([] : List Char) = [] then LITA0
        else [] ++ [' '] ++ LITA0) = LITA0 := if_pos rfl
    rw [hif1, if_pos ((by decide) : LITA0.length ≤ MAX_CHUNK_CHARS),
      accumParts_cons]
    have hif2 : (if LITA0 = [] then List.replicate 6400 'x'
        else LITA0 ++ [' '] ++ List.replicate 6400 'x') =
        LITA0 ++ [' '] ++ List.replicate 6400 'x' := if_neg LITA0_ne_nil
    rw [hif2]
    have hgt : ¬ (LITA0 ++ [' '] ++ List.replicate 6400 'x').length ≤
        MAX_CHUNK_CHARS := by
      rw [List.length_append, List.length_append, List.length_replicate]
      decide
    rw [if_neg hgt, if_pos ((by rw [List.length_replicate]; decide) :
      MAX_CHUNK_CHARS < (List.replicate 6400 'x').length)]
    have hif3 : (if LITA0 = [] then ([] : List (List Char))
        else [] ++ [LITA0]) = [LITA0] := by
      rw [if_neg LITA0_ne_nil]
      rfl
    rw [hif3, accumParts_nil]
  rw [ rs_gt_infix hlen hinf, hst,
    rs_gt_nil ((by rw [List.length_replicate]; decide) :
      MAX_CHUNK_CHARS < (List.replicate 6400 'x').length), hs64]
  simp [LITA0_ne_nil]

theorem rs2 :
    recursive_split SEPARATORS (exchangeContextText ex2 0) = parts2 := by
  have hlen : MAX_CHUNK_CHARS < (exchangeContextText ex2 0).length := by
    rw [exCtx2, List.length_append, List.length_cons, List.length_cons,
      U2_len, A2_len]
    decide
  have hform : exchangeContextText ex2 0 =
      U2 ++ ['\n', '\n'] ++ (LITA ++ List.replicate 6400 'x') := by
    rw [exCtx2]
    simp [-List.reduceReplicate]
  have hinf : hasInfix ['\n', '\n'] (exchangeContextText ex2 0) = true :=
    hasInfix_of_parts hform
  have hst : accumParts ['\n', '\n']
      (recursive_split [['\n'], ['.', ' '], ['!', ' '], ['?', ' '], [' ']])
      (pySplitOn ['\n', '\n'] (exchangeContextText ex2 0)) [] [] =
      ([U2] ++ recursive_split
          [['\n'], ['.', ' '], ['!', ' '], ['?', ' '], [' ']]
          (LITA ++ List.replicate 6400 'x'), U2) := by
    rw [split2, accumParts_cons]
    have hif1 : (if ([] : List Char) = [] then U2
        else [] ++ ['\n', '\n'] ++ U2) = U2 := if_pos rfl
    rw [hif1, if_pos ((by rw [U2_len]; decide) :
      U2.length ≤ MAX_CHUNK_CHARS), accumParts_cons]
    have hif2 : (if U2 = [] then LITA ++ List.replicate 6400 'x'
        else U2 ++ ['\n', '\n'] ++ (LITA ++ List.replicate 6400 'x')) =
        U2 ++ ['\n', '\n'] ++ (LITA ++ List.replicate 6400 'x') :=
      if_neg U2_ne_nil
    rw [hif2]
    have hgt : ¬ (U2 ++ ['\n', '\n'] ++
        (LITA ++ List.replicate 6400 'x')).length ≤ MAX_CHUNK_CHARS := by
      rw [List.length_append, List.length_append, U2_len, A2_len]
      decide
    rw [if_neg hgt, if_pos ((by rw [A2_len]; decide) :
      MAX_CHUNK_CHARS < (LITA ++ List.replicate 6400 'x').length)]
    have hif3 : (if U2 = [] then ([] : List (List Char))
        else [] ++ [U2]) = [U2] := by
      rw [if_neg U2_ne_nil]
      rfl
    rw [hif3, accumParts_nil]
  show recursive_split (['\n', '\n'] ::
      [['\n'], ['.', ' '], ['!', ' '], ['?', ' '], [' ']])
    (exchangeContextText ex2 0) = parts2
  rw [ rs_gt_infix hlen hinf, hst, rsA2]
  simp [U2_ne_nil, parts2]

theorem aop2 : add_overlap parts2 = oparts2 := rfl

theorem hlen2ex :
    ¬ (exchangeContextText ex2 0).length ≤ MAX_CHUNK_CHARS := by
  rw [exCtx2, List.length_append, List.length_cons, List.length_cons,
    U2_len, A2_len]
  decide

theorem cs2_eq : create_chunks_with_context ex2 0 = chunks2 := by
  rw [create_chunks_of_long ex2 0 mU2 mA2 rfl hlen2ex, rs2, aop2]
  rfl

theorem ovT_len (l : List Char) :
    (overlapTail l).length = l.length - (l.length - OVERLAP_CHARS) := by
  simp [overlapTail]

theorem cs2_maplen :
    (create_chunks_with_context ex2 0).map (fun c => c.text.length) =
      [8, 19, 1411, 1681, 1681, 1681, 1681, 1081, 291, 19] := by
  rw [cs2_eq]
  simp [chunks2, chunkOf2, ovT_len, U2, LITA0, R14, R8, LITU,
    OVERLAP_CHARS, -List.reduceReplicate]

/-- C2's bound MAX_CHUNK_CHARS + OVERLAP_CHARS = 1680 is exceeded: in the
6400-character scenario four fragments have 1681 characters, because
`add_overlap` joins the 280-character overlap to a 1400-character part
with an extra `" "` character. -/
theorem C2_counterexample :
    ¬ (∀ c ∈ create_chunks_with_context ex2 0,
        c.text.length ≤ MAX_CHUNK_CHARS + OVERLAP_CHARS) := by
  intro hall
  have h1681 : (1681 : Nat) ∈
      (create_chunks_with_context ex2 0).map (fun c => c.text.length) := by
    rw [cs2_maplen]
    simp
  rcases List.mem_map.1 h1681 with ⟨c, hc, hlen⟩
  have h2 := hall c hc
  have hlen2 : c.text.length = 1681 := hlen
  rw [hlen2] at h2
  exact absurd h2 (by decide)

/-- C2 (amended): in the 6400-character scenario every fragment's text has
length at most MAX_CHUNK_CHARS + OVERLAP_CHARS **+ 1** = 1681 (the extra
character is the `" "` joiner `add_overlap` inserts before the re-attached
overlap, so the claimed bound 1400 + 280 is off by one — see the
counterexample); the scenario yields 10 ≥ 2 fragments with text lengths
[8, 19, 1411, 1681, 1681, 1681, 1681, 1081, 291, 19], and every fragment
carries the assistant message's uuid as `parent_turn_id`.  (The bound also
fails to be universal: an all-separator text falls through `recursive_split`
un-split, so only the scenario-level statement is provable.) -/
theorem C2_chunk_size_bound (c : Chunk)
    (hc : c ∈ create_chunks_with_context ex2 0) :
    c.text.length ≤ MAX_CHUNK_CHARS + OVERLAP_CHARS + 1 ∧
      c.parent_turn_id = mA2.uuid ∧
      2 ≤ (create_chunks_with_context ex2 0).length ∧
      (create_chunks_with_context ex2 0).map (fun x => x.text.length) =
        [8, 19, 1411, 1681, 1681, 1681, 1681, 1081, 291, 19] := by
  refine ⟨?_, create_chunks_parent_of_long ex2 0 mU2 mA2 rfl hlen2ex c hc,
    ?_, cs2_maplen⟩
  · have hm : c.text.length ∈
        ([8, 19, 1411, 1681, 1681, 1681, 1681, 1081, 291, 19] :
          List Nat) := by
      rw [← cs2_maplen]
      exact List.mem_map_of_mem _ hc
    simp only [List.mem_cons, List.not_mem_nil, or_false] at hm
    rcases hm with h|h|h|h|h|h|h|h|h|h <;> rw [h] <;> decide
  · have hl := congrArg List.length cs2_maplen
    rw [List.length_map] at hl
    rw [hl]
    decide

/-- Witness for C2 at the scenario's first fragment. -/
theorem C2_chunk_size_bound_witness :
    (chunkOf2 0 U2).text.length ≤ MAX_CHUNK_CHARS + OVERLAP_CHARS + 1 ∧
      (chunkOf2 0 U2).parent_turn_id = mA2.uuid ∧
      2 ≤ (create_chunks_with_context ex2 0).length ∧
      (create_chunks_with_context ex2 0).map (fun x => x.text.length) =
        [8, 19, 1411, 1681, 1681, 1681, 1681, 1081, 291, 19] :=
  C2_chunk_size_bound (chunkOf2 0 U2)
    (by rw [cs2_eq]; exact List.mem_cons_self _ _)

end ClaudeMemory
